import Mathlib

/-!
Verification of the Topic Graph Engine of the twitter-topic-modeling
repository (`src/TopicManager.ts`).  The TypeScript class `TopicManager`
is shallowly embedded: its four JavaScript `Map`/`Set` fields become
insertion-ordered association lists, timestamps (`Date.now()`) become an
explicit `now : Nat` argument on every operation that reads the clock,
and JavaScript numbers used for interest levels become real numbers
(`Math.exp` becomes `Real.exp`), while the rational-valued Jaccard
similarities are modelled in `ℚ`.
-/

namespace TopicModel

/-! ### Insertion-ordered maps (JavaScript `Map` semantics)

A JavaScript `Map` iterates in insertion order, `set` on an existing key
updates it in place, `set` on a fresh key appends, and `delete` removes
the (unique) entry.  We model this with association lists; in a real
`Map` keys are duplicate-free, which appears below as `Nodup` hypotheses
where a proof needs them. -/

def mapGet {α : Type} [DecidableEq α] {β : Type} : List (α × β) → α → Option β
  | [], _ => none
  | (k, v) :: rest, key => if k = key then some v else mapGet rest key

def mapSet {α : Type} [DecidableEq α] {β : Type} : List (α × β) → α → β → List (α × β)
  | [], key, val => [(key, val)]
  | (k, v) :: rest, key, val =>
    if k = key then (key, val) :: rest else (k, v) :: mapSet rest key val

def mapDelete {α : Type} [DecidableEq α] {β : Type} : List (α × β) → α → List (α × β)
  | [], _ => []
  | (k, v) :: rest, key => if k = key then rest else (k, v) :: mapDelete rest key

/-- JavaScript `Set` insertion: append the element if it is not present. -/
def setAdd (l : List String) (x : String) : List String :=
  if x ∈ l then l else l ++ [x]

/-- JavaScript `Set.delete`. -/
def setRemove (l : List String) (x : String) : List String :=
  l.filter (fun t => decide (t ≠ x))

/-- First-occurrence deduplication, the order produced by `new Set([...])`
in JavaScript. -/
def uniqueKeep {α : Type} [DecidableEq α] (l : List α) : List α :=
  l.foldl (fun acc t => if t ∈ acc then acc else acc ++ [t]) []

/-! ### The normalizer (`TopicManager.normalizeTopic`)

The source lower-cases, trims, collapses whitespace runs to single
spaces, strips characters matching `[^\w\s]`, splits on the space
character, removes stop-words unless the string is a single token, and
rejoins with spaces.  Strings are processed as `List Char`. -/

/-- Whitespace in the sense of the JavaScript `\s` class (restricted to
the ASCII whitespace characters that can appear in our character model). -/
def isWsChar (c : Char) : Bool :=
  c = ' ' || c = '\t' || c = '\n' || c = '\r'

/-- Word characters in the sense of the JavaScript `\w` class. -/
def isWordChar (c : Char) : Bool :=
  c.isAlpha || c.isDigit || c = '_'

def lowerStr (l : List Char) : List Char := l.map Char.toLower

/-- `String.prototype.trim`: drop whitespace from both ends. -/
def trimL (l : List Char) : List Char :=
  ((l.dropWhile isWsChar).reverse.dropWhile isWsChar).reverse

/-- Worker for `replace(/\s+/g, ' ')`: the flag records whether the
previous character was whitespace (in which case further whitespace is
absorbed into the single emitted space). -/
def collapseAux : List Char → Bool → List Char
  | [], _ => []
  | c :: rest, prevWs =>
    if isWsChar c then
      if prevWs then collapseAux rest true else ' ' :: collapseAux rest true
    else c :: collapseAux rest false

def collapseL (l : List Char) : List Char := collapseAux l false

/-- `replace(/[^\w\s]/g, '')`: keep word characters and whitespace. -/
def stripL (l : List Char) : List Char :=
  l.filter (fun c => isWordChar c || isWsChar c)

/-- Steps 1-4 of `normalizeTopic`: lower-case, trim, collapse whitespace,
strip special characters. -/
def cleanL (l : List Char) : List Char :=
  stripL (collapseL (trimL (lowerStr l)))

/-- `String.prototype.split(' ')`: split on the space character;
adjacent separators yield empty pieces and the empty string yields a
single empty piece, exactly as in JavaScript. -/
def splitSp : List Char → List (List Char)
  | [] => [[]]
  | c :: rest =>
    match splitSp rest with
    | [] => [[]]
    | w :: ws => if c = ' ' then [] :: w :: ws else (c :: w) :: ws

/-- `Array.prototype.join(' ')`. -/
def joinSp : List (List Char) → List Char
  | [] => []
  | [w] => w
  | w :: ws => w ++ ' ' :: joinSp ws

/-- The stop-word list of `normalizeTopic`. -/
def stopWordsL : List (List Char) :=
  ["a", "an", "the", "and", "or", "but", "of", "for", "in", "on", "at", "to"].map
    String.toList

/-- Step 5 of `normalizeTopic`: drop stop-words, but only when the
string has more than one token. -/
def stopPhaseL (l : List Char) : List Char :=
  let words := splitSp l
  joinSp (if 1 < words.length then
            words.filter (fun w => !stopWordsL.contains w)
          else words)

def normalizeL (l : List Char) : List Char := stopPhaseL (cleanL l)

/-- `TopicManager.normalizeTopic`. -/
def normalizeTopic (s : String) : String := ⟨normalizeL s.data⟩

/-- Steps 1-4 of `normalizeTopic` as a string-level function (used to
state the stop-word claims). -/
def cleanStr (s : String) : String := ⟨cleanL s.data⟩

/-! ### The topic registry state (`TopicManager`)

`interestLevel` is a JavaScript number computed with `Math.exp`; it is
modelled as a real number, so the state-transforming definitions below
live in a `noncomputable section`.  No operation ever branches on an
interest level, so concrete states can still be evaluated by the kernel
on every field the claims mention. -/

structure TopicMetadata where
  isCore : Bool
  interestLevel : ℝ
  discoveryDate : ℕ
  lastUpdated : ℕ
  observationCount : ℕ
  mentionCount : ℕ
  relatedTopics : List String

structure TMState where
  coreTopics : List String
  discoveredTopics : List (String × TopicMetadata)
  topicRelationships : List (String × List (String × ℕ))
  synonyms : List (String × String)

/-- The state of a `TopicManager` constructed with no initial topics and
an empty cache. -/
def emptyState : TMState := ⟨[], [], [], []⟩

noncomputable section

/-- `TopicManager.getCanonicalTopic`: normalize, then resolve through
the synonym map (a single hop).  The source computes
`this.synonyms.get(normalized) || normalized`, and `||` falls back to
`normalized` not only when the entry is missing but also when the
stored value is the empty string, the one falsy string. -/
def getCanonicalTopic (σ : TMState) (topic : String) : String :=
  let normalized := normalizeTopic topic
  let resolved := (mapGet σ.synonyms normalized).getD normalized
  if resolved = "" then normalized else resolved

/-- `TopicManager.addTopic`.  `now` stands for `Date.now()`. -/
def addTopic (σ : TMState) (now : ℕ) (topic : String) (isCore : Bool) :
    String × TMState :=
  let normalizedTopic := normalizeTopic topic
  match mapGet σ.discoveredTopics normalizedTopic with
  | some metadata =>
    if isCore && !metadata.isCore then
      (normalizedTopic,
       { σ with
         discoveredTopics :=
           mapSet σ.discoveredTopics normalizedTopic { metadata with isCore := true },
         coreTopics := setAdd σ.coreTopics normalizedTopic })
    else (normalizedTopic, σ)
  | none =>
    let metadata : TopicMetadata :=
      { isCore := isCore
        interestLevel := if isCore then 1.0 else 0.5
        discoveryDate := now
        lastUpdated := now
        observationCount := 0
        mentionCount := 0
        relatedTopics := [] }
    (normalizedTopic,
     { σ with
       discoveredTopics := mapSet σ.discoveredTopics normalizedTopic metadata,
       coreTopics := if isCore then setAdd σ.coreTopics normalizedTopic else σ.coreTopics,
       topicRelationships := mapSet σ.topicRelationships normalizedTopic [] })

/-- Milliseconds per day, the divisor in `updateInterestLevel`. -/
def msPerDay : ℝ := 1000 * 60 * 60 * 24

/-- The interest formula of `TopicManager.updateInterestLevel`. -/
def interestFormula (isCore : Bool) (daysSinceLastUpdate : ℝ)
    (observationCount : ℕ) : ℝ :=
  let recencyFactor := Real.exp (-0.1 * daysSinceLastUpdate)
  let frequencyFactor := min 1.0 ((observationCount : ℝ) / 10)
  if isCore then max 0.7 (0.3 * recencyFactor + 0.7 * frequencyFactor)
  else 0.6 * recencyFactor + 0.4 * frequencyFactor

/-- `TopicManager.updateInterestLevel`. -/
def updateInterestLevel (σ : TMState) (now : ℕ) (topic : String) : TMState :=
  match mapGet σ.discoveredTopics topic with
  | none => σ
  | some metadata =>
    let daysSinceLastUpdate := ((now : ℝ) - (metadata.lastUpdated : ℝ)) / msPerDay
    { σ with
      discoveredTopics :=
        mapSet σ.discoveredTopics topic
          { metadata with
            interestLevel :=
              interestFormula metadata.isCore daysSinceLastUpdate
                metadata.observationCount } }

/-- `TopicManager.incrementRelationship`. -/
def incrementRelationship (σ : TMState) (topic1 topic2 : String) : TMState :=
  let rels0 :=
    if (mapGet σ.topicRelationships topic1).isSome then σ.topicRelationships
    else mapSet σ.topicRelationships topic1 []
  let relationships := (mapGet rels0 topic1).getD []
  let currentStrength := (mapGet relationships topic2).getD 0
  let rels1 := mapSet rels0 topic1 (mapSet relationships topic2 (currentStrength + 1))
  let disc1 :=
    match mapGet σ.discoveredTopics topic1 with
    | some metadata =>
      if topic2 ∈ metadata.relatedTopics then σ.discoveredTopics
      else
        mapSet σ.discoveredTopics topic1
          { metadata with relatedTopics := metadata.relatedTopics ++ [topic2] }
    | none => σ.discoveredTopics
  { σ with topicRelationships := rels1, discoveredTopics := disc1 }

/-- `TopicManager.updateTopicRelationships`: for every pair `i < j`,
increment both directed edges. -/
def updateTopicRelationships : TMState → List String → TMState
  | σ, [] => σ
  | σ, t :: rest =>
    updateTopicRelationships
      (rest.foldl
        (fun st t2 => incrementRelationship (incrementRelationship st t t2) t2 t) σ)
      rest

/-- `TopicManager.trackObservation`.  Note the source calls
`updateTopicRelationships` once per element of `uniqueTopics`, inside
the `forEach`. -/
def trackObservation (σ : TMState) (now : ℕ) (topics : List String) : TMState :=
  let uniqueTopics := uniqueKeep (topics.map (fun t => getCanonicalTopic σ t))
  uniqueTopics.foldl
    (fun st topic =>
      let st1 :=
        match mapGet st.discoveredTopics topic with
        | some metadata =>
          let md1 :=
            { metadata with
              observationCount := metadata.observationCount + 1
              mentionCount := metadata.mentionCount + 1
              lastUpdated := now }
          updateInterestLevel
            { st with discoveredTopics := mapSet st.discoveredTopics topic md1 }
            now topic
        | none => st
      updateTopicRelationships st1 uniqueTopics)
    σ

/-- The relationship-merging fold of `TopicManager.mergeTopic`: add each
of the source row's strengths into the target row. -/
def mergeRelFold (tgtRow srcRow : List (String × ℕ)) : List (String × ℕ) :=
  srcRow.foldl (fun acc p => mapSet acc p.1 ((mapGet acc p.1).getD 0 + p.2)) tgtRow

/-- The rewrite step of `TopicManager.mergeTopic` applied to one
adjacency row: fold any strength toward the source into the strength
toward the target, then drop the source. -/
def rewriteRow (sc tc : String) (row : List (String × ℕ)) : List (String × ℕ) :=
  if (mapGet row sc).isSome then
    mapDelete (mapSet row tc ((mapGet row sc).getD 0 + (mapGet row tc).getD 0)) sc
  else row

/-- `TopicManager.mergeTopic`.  Returns the boolean result together
with the state after the call. -/
def mergeTopic (σ : TMState) (sourceTopic targetTopic : String) : Bool × TMState :=
  let sourceCanonical := getCanonicalTopic σ sourceTopic
  let targetCanonical := getCanonicalTopic σ targetTopic
  if sourceCanonical = targetCanonical then (false, σ)
  else
    match mapGet σ.discoveredTopics sourceCanonical,
          mapGet σ.discoveredTopics targetCanonical with
    | some sourceMetadata, some targetMetadata =>
      let tm1 :=
        { targetMetadata with
          observationCount := targetMetadata.observationCount + sourceMetadata.observationCount
          mentionCount := targetMetadata.mentionCount + sourceMetadata.mentionCount
          interestLevel := max targetMetadata.interestLevel sourceMetadata.interestLevel }
      let tm2 := if sourceMetadata.isCore then { tm1 with isCore := true } else tm1
      let core1 :=
        if sourceMetadata.isCore then setAdd σ.coreTopics targetCanonical
        else σ.coreTopics
      let rels1 :=
        match mapGet σ.topicRelationships sourceCanonical with
        | some sourceRels =>
          mapSet σ.topicRelationships targetCanonical
            (mergeRelFold ((mapGet σ.topicRelationships targetCanonical).getD []) sourceRels)
        | none => σ.topicRelationships
      let tm3 :=
        { tm2 with
          relatedTopics :=
            (uniqueKeep (tm2.relatedTopics ++ sourceMetadata.relatedTopics)).filter
              (fun t => decide (t ≠ targetCanonical)) }
      let syn1 := mapSet σ.synonyms sourceCanonical targetCanonical
      let disc1 := mapDelete (mapSet σ.discoveredTopics targetCanonical tm3) sourceCanonical
      let core2 := setRemove core1 sourceCanonical
      let rels2 := mapDelete rels1 sourceCanonical
      let rels3 := rels2.map (fun p => (p.1, rewriteRow sourceCanonical targetCanonical p.2))
      (true,
       { coreTopics := core2
         discoveredTopics := disc1
         topicRelationships := rels3
         synonyms := syn1 })
    | _, _ => (false, σ)

/-- Stable descending insertion used to model the (stable) JavaScript
`sort((a, b) => b[1] - a[1])` in `getRelatedTopics`: an element is
placed before the first strictly weaker entry, hence after all earlier
entries of equal strength. -/
def insertDesc (x : String × ℕ) : List (String × ℕ) → List (String × ℕ)
  | [] => [x]
  | y :: ys => if y.2 < x.2 then x :: y :: ys else y :: insertDesc x ys

def sortDesc : List (String × ℕ) → List (String × ℕ)
  | [] => []
  | x :: xs => insertDesc x (sortDesc xs)

/-- `TopicManager.getRelatedTopics`. -/
def getRelatedTopics (σ : TMState) (topic : String) (limit : ℕ) : List String :=
  let canonicalTopic := getCanonicalTopic σ topic
  match mapGet σ.topicRelationships canonicalTopic with
  | none => []
  | some relationships => ((sortDesc relationships).take limit).map Prod.fst

end

/-- The directed edge weight `a → b` of the relationship graph (`0` when
either the row or the entry is absent). -/
def edgeW (σ : TMState) (a b : String) : ℕ :=
  (mapGet ((mapGet σ.topicRelationships a).getD []) b).getD 0

/-- Co-occurrence symmetry of the relationship graph. -/
def Symm (σ : TMState) : Prop := ∀ a b, edgeW σ a b = edgeW σ b a

/-- Well-formedness that a JavaScript `Map` guarantees for free: the
outer relationship map and each adjacency row are duplicate-free. -/
def RelWF (σ : TMState) : Prop :=
  (σ.topicRelationships.map Prod.fst).Nodup ∧
    ∀ p ∈ σ.topicRelationships, (p.2.map Prod.fst).Nodup

/-- The strength stored in one adjacency row (`0` when absent). -/
def rowVal (row : List (String × ℕ)) (k : String) : ℕ := (mapGet row k).getD 0

/-- The one-hop invariant claimed for the synonym mapping: no value of
the synonym map is itself a key. -/
def OneHop (σ : TMState) : Prop :=
  ∀ k v, mapGet σ.synonyms k = some v → mapGet σ.synonyms v = none

/-! ### The similarity resolver (`TopicManager.findSimilarTopic`)

Similarity scores are exact rationals; JavaScript computes the same
quotients in floating point. -/

/-- The word set of a key: first-occurrence-deduplicated space-split
tokens, the contents of `new Set(key.split(' '))`. -/
def wordsOf (s : String) : List (List Char) := uniqueKeep (splitSp s.data)

/-- Word-set Jaccard similarity as in `findSimilarTopicByComparison`
and `calculateTopicSimilarity`. -/
def jaccard (a b : String) : ℚ :=
  let wa := wordsOf a
  let wb := wordsOf b
  let inter := wa.filter (fun w => decide (w ∈ wb))
  let union := uniqueKeep (wa ++ wb)
  (inter.length : ℚ) / (union.length : ℚ)

/-- The best-match scan of `findSimilarTopicByComparison`: walk the
existing keys keeping the best (strictly improving) similarity that
clears the threshold. -/
def scanBest (n : String) (θ : ℚ) : List String → Option String × ℚ → Option String × ℚ
  | [], acc => acc
  | k :: ks, acc =>
    scanBest n θ ks
      (if k = n then acc
       else if jaccard n k > acc.2 ∧ jaccard n k ≥ θ then (some k, jaccard n k) else acc)

/-- `TopicManager.findSimilarTopicByComparison`. -/
def findSimilarTopicByComparison (σ : TMState) (normalized : String) (θ : ℚ) :
    Option String :=
  (scanBest normalized θ (σ.discoveredTopics.map Prod.fst) (none, 0)).1

/-- The source's `similarityThreshold` field (`0.85`). -/
def similarityThreshold : ℚ := 85 / 100

/-- `TopicManager.findSimilarTopic`.  The `oracle` argument stands for
the outcome of `findSimilarTopicViaLLM` (the parsed best match and its
score), which is only consulted when the registry holds at least 100
topics. -/
def findSimilarTopic (σ : TMState) (topic : String) (θ : ℚ)
    (oracle : Option (String × ℚ)) : Option String :=
  let normalized := normalizeTopic topic
  if (mapGet σ.discoveredTopics normalized).isSome then some normalized
  else
    match mapGet σ.synonyms normalized with
    | some canonical => some canonical
    | none =>
      if σ.discoveredTopics.length < 100 then
        findSimilarTopicByComparison σ normalized θ
      else
        match oracle with
        | some (m, sim) => if sim ≥ θ then some m else none
        | none => none

/-- Stated from the specification's wording, for comparison with the
source's scan: the existing key with the highest word-set Jaccard
similarity to the candidate, provided that similarity is at or above
the threshold, ties broken in favor of the first-encountered key, and
none when no key reaches the threshold. -/
def specHighestJaccard (n : String) (θ : ℚ) (keys : List String) : Option String :=
  let best := (keys.map (fun k => jaccard n k)).foldr max 0
  if θ ≤ best then keys.find? (fun k => decide (jaccard n k = best)) else none

/-- The running similarity maximum tracked by the scan of
`findSimilarTopicByComparison` (its `bestSimilarity` variable). -/
def qualMax (n : String) (θ : ℚ) : List String → ℚ → ℚ
  | [], s => s
  | k :: ks, s =>
    qualMax n θ ks
      (if k = n then s
       else if jaccard n k > s ∧ jaccard n k ≥ θ then jaccard n k else s)

/-! ### Shape predicates for normalizer outputs -/

/-- No two adjacent whitespace characters. -/
def noDoubleWs : List Char → Bool
  | [] => true
  | [_] => true
  | a :: b :: rest => !(isWsChar a && isWsChar b) && noDoubleWs (b :: rest)

/-- The first character, if any, is not whitespace. -/
def headNotWs : List Char → Bool
  | [] => true
  | c :: _ => !isWsChar c

/-! ### Concrete reachable states used by the witnesses and
counterexamples (all built from the empty registry by the embedded
operations) -/

noncomputable section

/-- Three topics registered from scratch. -/
def stateXYZ : TMState :=
  (addTopic (addTopic (addTopic emptyState 0 "x" false).2 0 "y" false).2 0 "z" false).2

/-- After `mergeTopic("x", "y")`: the synonym map holds `x ↦ y`. -/
def stateAfterXY : TMState := (mergeTopic stateXYZ "x" "y").2

/-- After additionally `mergeTopic("y", "z")`: the synonym map holds
`x ↦ y` and `y ↦ z`, a two-hop chain. -/
def stateChain : TMState := (mergeTopic stateAfterXY "y" "z").2

/-- Two topics registered from scratch. -/
def statePQ : TMState :=
  (addTopic (addTopic emptyState 0 "p" false).2 0 "q" false).2

/-- One observation mentioning both registered topics. -/
def statePQObs : TMState := trackObservation statePQ 5 ["p", "q"]

/-- An observation of two unregistered topics followed by `addTopic` of
one of them, which resets that topic's adjacency row. -/
def stateReset : TMState :=
  (addTopic (trackObservation emptyState 0 ["x", "y"]) 1 "x" false).2

/-- A live empty-string topic (`addTopic("")` registers the key `""`)
together with the live topic `"x"`.  Merging `"x"` into `""` installs
the falsy synonym entry `x ↦ ""`. -/
def stateEmpty : TMState :=
  (addTopic (addTopic emptyState 0 "" false).2 0 "x" false).2

/-- One core topic registered from scratch. -/
def stateCore : TMState := (addTopic emptyState 0 "base" true).2

/-- The metadata record `addTopic` creates for a non-core topic at
time `0`. -/
def mdFresh : TopicMetadata :=
  { isCore := false
    interestLevel := 0.5
    discoveryDate := 0
    lastUpdated := 0
    observationCount := 0
    mentionCount := 0
    relatedTopics := [] }

/-- The metadata record `addTopic` creates for a core topic at
time `0`. -/
def mdFreshCore : TopicMetadata :=
  { isCore := true
    interestLevel := 1.0
    discoveryDate := 0
    lastUpdated := 0
    observationCount := 0
    mentionCount := 0
    relatedTopics := [] }

/-- Two lexically close topics for exercising the similarity scan. -/
def stateJac : TMState :=
  (addTopic (addTopic emptyState 0 "machine learning model" false).2
    0 "deep learning" false).2

end

/-! ### Lemmas about the association-list map operations -/

section MapLemmas

variable {α β : Type} [DecidableEq α]

theorem mapGet_mapSet (m : List (α × β)) (k : α) (v : β) (k' : α) :
    mapGet (mapSet m k v) k' = if k = k' then some v else mapGet m k' := by
  induction m with
  | nil => simp [mapSet, mapGet]
  | cons p rest ih =>
    obtain ⟨a, b⟩ := p
    by_cases hak : a = k
    · subst hak
      by_cases hk : a = k' <;> simp [mapSet, mapGet, hk]
    · by_cases hk : a = k'
      · subst hk
        have hka : ¬k = a := fun h => hak h.symm
        simp [mapSet, mapGet, hak, hka]
      · simp [mapSet, mapGet, hak, hk, ih]

theorem mapGet_mapSet_self (m : List (α × β)) (k : α) (v : β) :
    mapGet (mapSet m k v) k = some v := by
  simp [mapGet_mapSet]

theorem mapGet_mapSet_ne (m : List (α × β)) (k : α) (v : β) (k' : α) (h : k ≠ k') :
    mapGet (mapSet m k v) k' = mapGet m k' := by
  simp [mapGet_mapSet, h]

theorem mapGet_mapDelete_ne (m : List (α × β)) (k k' : α) (h : k ≠ k') :
    mapGet (mapDelete m k) k' = mapGet m k' := by
  induction m with
  | nil => simp [mapDelete]
  | cons p rest ih =>
    obtain ⟨a, b⟩ := p
    by_cases hak : a = k
    · subst hak
      simp [mapDelete, mapGet, h]
    · by_cases hk : a = k'
      · subst hk
        simp [mapDelete, mapGet, hak]
      · simp [mapDelete, mapGet, hak, hk, ih]

theorem mapGet_eq_none_of_not_mem (m : List (α × β)) (k : α)
    (h : k ∉ m.map Prod.fst) : mapGet m k = none := by
  induction m with
  | nil => simp [mapGet]
  | cons p rest ih =>
    simp only [List.map_cons, List.mem_cons] at h
    push_neg at h
    have hne : ¬p.1 = k := fun hh => h.1 hh.symm
    simpa [mapGet, hne] using ih h.2

theorem not_mem_of_mapGet_eq_none (m : List (α × β)) (k : α)
    (h : mapGet m k = none) : k ∉ m.map Prod.fst := by
  induction m with
  | nil => simp
  | cons p rest ih =>
    by_cases hk : p.1 = k
    · simp [mapGet, hk] at h
    · simp only [mapGet, hk, if_false] at h
      have hne : ¬k = p.1 := fun hh => hk hh.symm
      simpa [hne] using ih h

theorem mem_of_mapGet_eq_some (m : List (α × β)) (k : α) (v : β)
    (h : mapGet m k = some v) : (k, v) ∈ m := by
  induction m with
  | nil => simp [mapGet] at h
  | cons p rest ih =>
    obtain ⟨a, b⟩ := p
    by_cases hk : a = k
    · subst hk
      have hbv : b = v := by simpa [mapGet] using h
      subst hbv
      exact List.mem_cons_self _ _
    · simp only [mapGet, hk, if_false] at h
      exact List.mem_cons_of_mem _ (ih h)

theorem mapGet_mapDelete_self (m : List (α × β)) (k : α)
    (hnd : (m.map Prod.fst).Nodup) : mapGet (mapDelete m k) k = none := by
  induction m with
  | nil => simp [mapDelete, mapGet]
  | cons p rest ih =>
    obtain ⟨a, b⟩ := p
    simp only [List.map_cons, List.nodup_cons] at hnd
    by_cases hak : a = k
    · subst hak
      simpa [mapDelete] using mapGet_eq_none_of_not_mem rest a hnd.1
    · simp [mapDelete, mapGet, hak, ih hnd.2]

theorem keys_mapSet (m : List (α × β)) (k : α) (v : β) :
    (mapSet m k v).map Prod.fst =
      if k ∈ m.map Prod.fst then m.map Prod.fst else m.map Prod.fst ++ [k] := by
  induction m with
  | nil => simp [mapSet]
  | cons p rest ih =>
    obtain ⟨a, b⟩ := p
    by_cases hak : a = k
    · subst hak
      simp [mapSet]
    · by_cases hmem : k ∈ rest.map Prod.fst <;>
        simp [mapSet, hak, Ne.symm hak, hmem, ih]

theorem nodup_keys_mapSet (m : List (α × β)) (k : α) (v : β)
    (hnd : (m.map Prod.fst).Nodup) : ((mapSet m k v).map Prod.fst).Nodup := by
  rw [keys_mapSet]
  by_cases hmem : k ∈ m.map Prod.fst
  · simpa [hmem]
  · rw [if_neg hmem, List.nodup_append]
    refine ⟨hnd, List.nodup_singleton k, ?_⟩
    intro a ha hb
    simp only [List.mem_singleton] at hb
    exact hmem (hb ▸ ha)

theorem sublist_mapDelete (m : List (α × β)) (k : α) :
    (mapDelete m k).Sublist m := by
  induction m with
  | nil => simp [mapDelete]
  | cons p rest ih =>
    obtain ⟨a, b⟩ := p
    by_cases hak : a = k
    · subst hak
      simp only [mapDelete, if_pos rfl]
      exact List.sublist_cons_self _ _
    · simp only [mapDelete, if_neg hak]
      exact List.Sublist.cons₂ _ ih

theorem nodup_keys_mapDelete (m : List (α × β)) (k : α)
    (hnd : (m.map Prod.fst).Nodup) : ((mapDelete m k).map Prod.fst).Nodup :=
  List.Nodup.sublist (List.Sublist.map Prod.fst (sublist_mapDelete m k)) hnd

theorem mapGet_map_snd {γ : Type} (f : β → γ) (m : List (α × β)) (k : α) :
    mapGet (m.map (fun p => (p.1, f p.2))) k = (mapGet m k).map f := by
  induction m with
  | nil => simp [mapGet]
  | cons p rest ih =>
    by_cases hk : p.1 = k <;> simp [mapGet, hk, ih]

end MapLemmas

/-! ### Symmetry of the relationship graph under `trackObservation` -/

theorem edgeW_incrementRelationship (σ : TMState) (t1 t2 x y : String) :
    edgeW (incrementRelationship σ t1 t2) x y =
      if x = t1 ∧ y = t2 then edgeW σ x y + 1 else edgeW σ x y := by
  have hrow :
      (mapGet (if (mapGet σ.topicRelationships t1).isSome then σ.topicRelationships
          else mapSet σ.topicRelationships t1 []) t1).getD [] =
        (mapGet σ.topicRelationships t1).getD [] := by
    cases hR : mapGet σ.topicRelationships t1 <;> simp [hR, mapGet_mapSet_self]
  simp only [incrementRelationship, edgeW]
  by_cases hx : x = t1
  · subst hx
    rw [mapGet_mapSet_self, hrow]
    simp only [Option.getD_some]
    by_cases hy : y = t2
    · subst hy
      rw [mapGet_mapSet_self]
      simp
    · rw [mapGet_mapSet_ne _ _ _ _ (fun h => hy h.symm)]
      simp [hy]
  · have hne : ¬(x = t1 ∧ y = t2) := fun h => hx h.1
    rw [mapGet_mapSet_ne _ _ _ _ (fun h => hx h.symm)]
    simp only [hne, if_false]
    cases hR : mapGet σ.topicRelationships t1 with
    | none =>
      simp only [hR, Option.isSome_none, Bool.false_eq_true, if_false]
      rw [mapGet_mapSet_ne _ _ _ _ (fun h => hx h.symm)]
    | some row => simp [hR]

theorem symm_incrPair (σ : TMState) (t1 t2 : String) (h : Symm σ) :
    Symm (incrementRelationship (incrementRelationship σ t1 t2) t2 t1) := by
  intro a b
  have hab := h a b
  rw [edgeW_incrementRelationship, edgeW_incrementRelationship,
    edgeW_incrementRelationship, edgeW_incrementRelationship]
  by_cases ha1 : a = t1 <;> by_cases ha2 : a = t2 <;>
    by_cases hb1 : b = t1 <;> by_cases hb2 : b = t2 <;>
      simp_all

theorem symm_pairFold (t : String) (rest : List String) (σ : TMState) (h : Symm σ) :
    Symm (rest.foldl
      (fun st t2 => incrementRelationship (incrementRelationship st t t2) t2 t) σ) := by
  induction rest generalizing σ with
  | nil => exact h
  | cons t2 rest ih => exact ih _ (symm_incrPair σ t t2 h)

theorem symm_updateTopicRelationships (ts : List String) (σ : TMState) (h : Symm σ) :
    Symm (updateTopicRelationships σ ts) := by
  induction ts generalizing σ with
  | nil => exact h
  | cons t rest ih => exact ih _ (symm_pairFold t rest σ h)

theorem topicRelationships_updateInterestLevel (σ : TMState) (now : ℕ) (t : String) :
    (updateInterestLevel σ now t).topicRelationships = σ.topicRelationships := by
  unfold updateInterestLevel
  cases mapGet σ.discoveredTopics t <;> rfl

theorem symm_of_eq_rels {σ σ' : TMState}
    (h : σ'.topicRelationships = σ.topicRelationships) (hs : Symm σ) : Symm σ' := by
  intro a b
  have : edgeW σ' a b = edgeW σ a b := by simp [edgeW, h]
  have h2 : edgeW σ' b a = edgeW σ b a := by simp [edgeW, h]
  rw [this, h2]
  exact hs a b

theorem symm_trackObservation (σ : TMState) (now : ℕ) (topics : List String)
    (h : Symm σ) : Symm (trackObservation σ now topics) := by
  unfold trackObservation
  generalize uniqueKeep (topics.map fun t => getCanonicalTopic σ t) = uts
  suffices hgen : ∀ (l : List String) (st : TMState), Symm st →
      Symm (l.foldl
        (fun st topic =>
          let st1 :=
            match mapGet st.discoveredTopics topic with
            | some metadata =>
              let md1 :=
                { metadata with
                  observationCount := metadata.observationCount + 1
                  mentionCount := metadata.mentionCount + 1
                  lastUpdated := now }
              updateInterestLevel
                { st with discoveredTopics := mapSet st.discoveredTopics topic md1 }
                now topic
            | none => st
          updateTopicRelationships st1 uts) st) by
    exact hgen uts σ h
  intro l
  induction l with
  | nil => intro st hst; exact hst
  | cons t rest ih =>
    intro st hst
    refine ih _ (symm_updateTopicRelationships uts _ ?_)
    cases hmd : mapGet st.discoveredTopics t with
    | none => simpa [hmd] using hst
    | some md =>
      simp only [hmd]
      exact symm_of_eq_rels (by rw [topicRelationships_updateInterestLevel]) hst

/-! ### The relationship graph after `mergeTopic` -/

theorem edgeW_eq_rowVal (σ : TMState) (a b : String) :
    edgeW σ a b = rowVal ((mapGet σ.topicRelationships a).getD []) b := rfl

theorem rowVal_mergeRelFold (src : List (String × ℕ)) (tgt : List (String × ℕ))
    (hnd : (src.map Prod.fst).Nodup) (k : String) :
    rowVal (mergeRelFold tgt src) k = rowVal tgt k + rowVal src k := by
  induction src generalizing tgt with
  | nil => simp [mergeRelFold, rowVal, mapGet]
  | cons p rest ih =>
    obtain ⟨k0, v0⟩ := p
    simp only [List.map_cons, List.nodup_cons] at hnd
    have hstep : mergeRelFold tgt ((k0, v0) :: rest) =
        mergeRelFold (mapSet tgt k0 ((mapGet tgt k0).getD 0 + v0)) rest := rfl
    rw [hstep, ih _ hnd.2]
    by_cases hk : k0 = k
    · subst hk
      have hrest : mapGet rest k0 = none := mapGet_eq_none_of_not_mem rest k0 hnd.1
      simp [rowVal, mapGet_mapSet_self, mapGet, hrest]
    · have h1 : rowVal (mapSet tgt k0 ((mapGet tgt k0).getD 0 + v0)) k = rowVal tgt k := by
        rw [rowVal, mapGet_mapSet_ne _ _ _ _ hk]
        rfl
      have h2 : rowVal ((k0, v0) :: rest) k = rowVal rest k := by
        simp [rowVal, mapGet, hk]
      rw [h1, h2]

theorem nodup_mergeRelFold (src : List (String × ℕ)) (tgt : List (String × ℕ))
    (hnd : (tgt.map Prod.fst).Nodup) :
    ((mergeRelFold tgt src).map Prod.fst).Nodup := by
  induction src generalizing tgt with
  | nil => exact hnd
  | cons p rest ih => exact ih _ (nodup_keys_mapSet _ _ _ hnd)

theorem rowVal_rewriteRow (sc tc : String) (row : List (String × ℕ))
    (hnd : (row.map Prod.fst).Nodup) (hne : sc ≠ tc) (y : String) :
    rowVal (rewriteRow sc tc row) y =
      if y = sc then 0
      else if y = tc then rowVal row tc + rowVal row sc
      else rowVal row y := by
  unfold rewriteRow
  cases hsc : mapGet row sc with
  | none =>
    have h0 : rowVal row sc = 0 := by rw [rowVal, hsc]; rfl
    simp only [hsc, Option.isSome_none, Bool.false_eq_true, if_false]
    by_cases hy1 : y = sc
    · subst hy1; simp [h0]
    · by_cases hy2 : y = tc
      · subst hy2; simp [hy1, h0]
      · simp [hy1, hy2]
  | some s =>
    simp only [hsc, Option.isSome_some, if_true]
    by_cases hy1 : y = sc
    · subst hy1
      rw [if_pos rfl, rowVal,
        mapGet_mapDelete_self _ _ (nodup_keys_mapSet _ _ _ hnd)]
      rfl
    · by_cases hy2 : y = tc
      · subst hy2
        rw [if_neg hy1, if_pos rfl, rowVal,
          mapGet_mapDelete_ne _ _ _ hne, mapGet_mapSet_self]
        simp [rowVal, hsc]
        omega
      · rw [if_neg hy1, if_neg hy2, rowVal,
          mapGet_mapDelete_ne _ _ _ (fun h => hy1 h.symm),
          mapGet_mapSet_ne _ _ _ _ (fun h => hy2 h.symm)]
        rfl

section MergeShape

variable (σ : TMState) (source target : String) (smd tmd : TopicMetadata)

theorem mergeTopic_success_fst
    (hne : getCanonicalTopic σ source ≠ getCanonicalTopic σ target)
    (hs : mapGet σ.discoveredTopics (getCanonicalTopic σ source) = some smd)
    (ht : mapGet σ.discoveredTopics (getCanonicalTopic σ target) = some tmd) :
    (mergeTopic σ source target).1 = true := by
  simp only [mergeTopic, if_neg hne, hs, ht]

theorem mergeTopic_success_synonyms
    (hne : getCanonicalTopic σ source ≠ getCanonicalTopic σ target)
    (hs : mapGet σ.discoveredTopics (getCanonicalTopic σ source) = some smd)
    (ht : mapGet σ.discoveredTopics (getCanonicalTopic σ target) = some tmd) :
    (mergeTopic σ source target).2.synonyms =
      mapSet σ.synonyms (getCanonicalTopic σ source) (getCanonicalTopic σ target) := by
  simp only [mergeTopic, if_neg hne, hs, ht]

theorem mergeTopic_success_rels
    (hne : getCanonicalTopic σ source ≠ getCanonicalTopic σ target)
    (hs : mapGet σ.discoveredTopics (getCanonicalTopic σ source) = some smd)
    (ht : mapGet σ.discoveredTopics (getCanonicalTopic σ target) = some tmd) :
    (mergeTopic σ source target).2.topicRelationships =
      (mapDelete
        (match mapGet σ.topicRelationships (getCanonicalTopic σ source) with
          | some sourceRels =>
            mapSet σ.topicRelationships (getCanonicalTopic σ target)
              (mergeRelFold
                ((mapGet σ.topicRelationships (getCanonicalTopic σ target)).getD [])
                sourceRels)
          | none => σ.topicRelationships)
        (getCanonicalTopic σ source)).map
        (fun p =>
          (p.1, rewriteRow (getCanonicalTopic σ source) (getCanonicalTopic σ target) p.2)) := by
  simp only [mergeTopic, if_neg hne, hs, ht]

theorem mergeTopic_success_disc
    (hne : getCanonicalTopic σ source ≠ getCanonicalTopic σ target)
    (hs : mapGet σ.discoveredTopics (getCanonicalTopic σ source) = some smd)
    (ht : mapGet σ.discoveredTopics (getCanonicalTopic σ target) = some tmd) :
    ∃ md : TopicMetadata,
      (mergeTopic σ source target).2.discoveredTopics =
        mapDelete (mapSet σ.discoveredTopics (getCanonicalTopic σ target) md)
          (getCanonicalTopic σ source) ∧
      md.mentionCount = tmd.mentionCount + smd.mentionCount ∧
      md.observationCount = tmd.observationCount + smd.observationCount := by
  refine
    ⟨(fun tm2 =>
        { tm2 with
          relatedTopics :=
            (uniqueKeep (tm2.relatedTopics ++ smd.relatedTopics)).filter
              (fun t => decide (t ≠ getCanonicalTopic σ target)) })
      (if smd.isCore then
        { tmd with
          observationCount := tmd.observationCount + smd.observationCount
          mentionCount := tmd.mentionCount + smd.mentionCount
          interestLevel := max tmd.interestLevel smd.interestLevel
          isCore := true }
       else
        { tmd with
          observationCount := tmd.observationCount + smd.observationCount
          mentionCount := tmd.mentionCount + smd.mentionCount
          interestLevel := max tmd.interestLevel smd.interestLevel }),
     ?_, ?_, ?_⟩
  · simp only [mergeTopic, if_neg hne, hs, ht]
  · cases hc : smd.isCore <;> simp [hc]
  · cases hc : smd.isCore <;> simp [hc]

theorem mergeTopic_false_state (h : (mergeTopic σ source target).1 = false) :
    (mergeTopic σ source target).2 = σ := by
  by_cases hne : getCanonicalTopic σ source = getCanonicalTopic σ target
  · simp [mergeTopic, hne]
  · cases hs : mapGet σ.discoveredTopics (getCanonicalTopic σ source) with
    | none => simp [mergeTopic, hne, hs]
    | some smd =>
      cases ht : mapGet σ.discoveredTopics (getCanonicalTopic σ target) with
      | none => simp [mergeTopic, hne, hs, ht]
      | some tmd =>
        exact absurd h (by simp [mergeTopic_success_fst σ source target smd tmd hne hs ht])

end MergeShape

theorem nodup_row_of_mapGet {σ : TMState} (hwf : RelWF σ) {a : String}
    {row : List (String × ℕ)} (h : mapGet σ.topicRelationships a = some row) :
    (row.map Prod.fst).Nodup :=
  hwf.2 _ (mem_of_mapGet_eq_some _ _ _ h)

theorem nodup_rowD {σ : TMState} (hwf : RelWF σ) (a : String) :
    (((mapGet σ.topicRelationships a).getD []).map Prod.fst).Nodup := by
  cases h : mapGet σ.topicRelationships a with
  | none => simp
  | some row => simpa using nodup_row_of_mapGet hwf h

/-- The value of one adjacency row after the rewrite pass of
`mergeTopic`, looked up directly from a state's relationship map. -/
theorem rowVal_rewrite_lookup (σ : TMState) (hwf : RelWF σ) (sc tc : String)
    (hne : sc ≠ tc) (x y : String) :
    rowVal (((mapGet σ.topicRelationships x).map (rewriteRow sc tc)).getD []) y =
      if y = sc then 0
      else if y = tc then edgeW σ x tc + edgeW σ x sc
      else edgeW σ x y := by
  cases hrx : mapGet σ.topicRelationships x with
  | none =>
    have hx0 : ∀ z, edgeW σ x z = 0 := by
      intro z
      rw [edgeW_eq_rowVal, hrx]
      simp [rowVal, mapGet]
    by_cases hys : y = sc
    · simp [hys, rowVal, mapGet]
    · by_cases hyt : y = tc <;> simp [hys, hyt, rowVal, mapGet, hx0]
  | some rx =>
    have hrxval : ∀ z, edgeW σ x z = rowVal rx z := by
      intro z
      rw [edgeW_eq_rowVal, hrx]
      simp
    simp only [Option.map_some', Option.getD_some]
    rw [rowVal_rewriteRow sc tc rx (nodup_row_of_mapGet hwf hrx) hne y]
    by_cases hys : y = sc
    · simp [hys]
    · by_cases hyt : y = tc <;> simp [hys, hyt, hrxval]

/-- How `mergeTopic` transforms every directed edge weight: all edges at
the source key drop to zero, edges at the target key absorb the
corresponding source edges (including a folded self-loop at the target),
and all other edges are untouched. -/
theorem edgeW_mergeTopic (σ : TMState) (source target : String)
    (smd tmd : TopicMetadata) (hwf : RelWF σ)
    (hne : getCanonicalTopic σ source ≠ getCanonicalTopic σ target)
    (hs : mapGet σ.discoveredTopics (getCanonicalTopic σ source) = some smd)
    (ht : mapGet σ.discoveredTopics (getCanonicalTopic σ target) = some tmd)
    (x y : String) :
    edgeW (mergeTopic σ source target).2 x y =
      if x = getCanonicalTopic σ source ∨ y = getCanonicalTopic σ source then 0
      else if x = getCanonicalTopic σ target ∧ y = getCanonicalTopic σ target then
        edgeW σ x y + edgeW σ x (getCanonicalTopic σ source) +
          edgeW σ (getCanonicalTopic σ source) y +
          edgeW σ (getCanonicalTopic σ source) (getCanonicalTopic σ source)
      else if x = getCanonicalTopic σ target then
        edgeW σ x y + edgeW σ (getCanonicalTopic σ source) y
      else if y = getCanonicalTopic σ target then
        edgeW σ x y + edgeW σ x (getCanonicalTopic σ source)
      else edgeW σ x y := by
  have hrels := mergeTopic_success_rels σ source target smd tmd hne hs ht
  set sc := getCanonicalTopic σ source with hsc_def
  set tc := getCanonicalTopic σ target with htc_def
  rw [edgeW_eq_rowVal, hrels, mapGet_map_snd]
  by_cases hxs : x = sc
  · subst hxs
    have hnd :
        (((match mapGet σ.topicRelationships sc with
            | some sourceRels =>
              mapSet σ.topicRelationships tc
                (mergeRelFold ((mapGet σ.topicRelationships tc).getD []) sourceRels)
            | none => σ.topicRelationships)
          : List (String × List (String × ℕ))).map Prod.fst).Nodup := by
      cases hsr : mapGet σ.topicRelationships sc with
      | some sr => simpa [hsr] using nodup_keys_mapSet _ tc _ hwf.1
      | none => simpa [hsr] using hwf.1
    rw [mapGet_mapDelete_self _ _ hnd]
    simp [rowVal, mapGet]
  · rw [mapGet_mapDelete_ne _ _ _ (fun h => hxs h.symm)]
    have htcsc : ¬tc = sc := fun h => hne h.symm
    cases hsr : mapGet σ.topicRelationships sc with
    | some sr =>
      have hsrnd : (sr.map Prod.fst).Nodup := nodup_row_of_mapGet hwf hsr
      simp only [hsr]
      have hfoldval : ∀ z,
          rowVal (mergeRelFold ((mapGet σ.topicRelationships tc).getD []) sr) z =
            edgeW σ tc z + edgeW σ sc z := by
        intro z
        rw [rowVal_mergeRelFold sr _ hsrnd z]
        have h1 : edgeW σ tc z = rowVal ((mapGet σ.topicRelationships tc).getD []) z :=
          edgeW_eq_rowVal σ tc z
        have h2 : edgeW σ sc z = rowVal sr z := by
          rw [edgeW_eq_rowVal, hsr]
          simp
        rw [h1, h2]
      by_cases hxt : x = tc
      · subst hxt
        rw [mapGet_mapSet_self]
        simp only [Option.map_some', Option.getD_some]
        rw [rowVal_rewriteRow sc tc _
          (nodup_mergeRelFold sr _ (nodup_rowD hwf tc)) hne y]
        by_cases hys : y = sc
        · simp [hys]
        · by_cases hyt : y = tc
          · subst hyt
            rw [if_neg hys, if_pos rfl, hfoldval tc, hfoldval sc]
            simp only [htcsc, or_self, if_false, and_self, if_true]
            all_goals omega
          · rw [if_neg hys, if_neg hyt, hfoldval y]
            simp only [htcsc, hys, hyt, or_self, or_false, if_false, and_false,
              if_true, and_true]
      · rw [mapGet_mapSet_ne _ _ _ _ (fun h => hxt h.symm),
          rowVal_rewrite_lookup σ hwf sc tc hne x y]
        by_cases hys : y = sc
        · simp [hys]
        · by_cases hyt : y = tc
          · subst hyt
            rw [if_neg hys, if_pos rfl]
            simp [hxs, htcsc, hxt]
          · rw [if_neg hys, if_neg hyt]
            simp [hxs, hys, hxt, hyt]
    | none =>
      have hsc0 : ∀ z, edgeW σ sc z = 0 := by
        intro z
        rw [edgeW_eq_rowVal, hsr]
        simp [rowVal, mapGet]
      simp only [hsr]
      rw [rowVal_rewrite_lookup σ hwf sc tc hne x y]
      by_cases hys : y = sc
      · simp [hys]
      · by_cases hyt : y = tc
        · subst hyt
          rw [if_neg hys, if_pos rfl]
          by_cases hxt : x = tc
          · subst hxt
            simp only [htcsc, or_self, if_false, and_self, if_true]
            rw [hsc0, hsc0]
            all_goals omega
          · simp [hxs, htcsc, hxt]
        · rw [if_neg hys, if_neg hyt]
          by_cases hxt : x = tc
          · subst hxt
            simp only [htcsc, hys, hyt, or_self, or_false, if_false, and_false,
              if_true, and_true]
            rw [hsc0]
            all_goals omega
          · simp [hxs, hys, hxt, hyt]

theorem symm_mergeTopic (σ : TMState) (s t : String) (hs : Symm σ) (hwf : RelWF σ) :
    Symm (mergeTopic σ s t).2 := by
  by_cases hne : getCanonicalTopic σ s = getCanonicalTopic σ t
  · have : (mergeTopic σ s t).2 = σ := by simp [mergeTopic, hne]
    rw [this]
    exact hs
  · cases hsmd : mapGet σ.discoveredTopics (getCanonicalTopic σ s) with
    | none =>
      have : (mergeTopic σ s t).2 = σ := by simp [mergeTopic, hne, hsmd]
      rw [this]
      exact hs
    | some smd =>
      cases htmd : mapGet σ.discoveredTopics (getCanonicalTopic σ t) with
      | none =>
        have : (mergeTopic σ s t).2 = σ := by simp [mergeTopic, hne, hsmd, htmd]
        rw [this]
        exact hs
      | some tmd =>
        intro a b
        rw [edgeW_mergeTopic σ s t smd tmd hwf hne hsmd htmd a b,
          edgeW_mergeTopic σ s t smd tmd hwf hne hsmd htmd b a]
        set sc := getCanonicalTopic σ s
        set tc := getCanonicalTopic σ t
        have h1 := hs a b
        have h2 := hs a sc
        have h3 := hs a tc
        have h4 := hs b sc
        have h5 := hs b tc
        have h6 := hs sc tc
        by_cases has : a = sc <;> by_cases hbs : b = sc <;>
          by_cases hat : a = tc <;> by_cases hbt : b = tc <;>
            simp_all

/-! ### The synonym map: one-hop resolution -/

theorem synonyms_addTopic (σ : TMState) (now : ℕ) (topic : String) (core : Bool) :
    (addTopic σ now topic core).2.synonyms = σ.synonyms := by
  unfold addTopic
  cases hmd : mapGet σ.discoveredTopics (normalizeTopic topic) with
  | some md =>
    simp only [hmd]
    split <;> rfl
  | none =>
    simp only [hmd]

theorem synonyms_incrementRelationship (σ : TMState) (t1 t2 : String) :
    (incrementRelationship σ t1 t2).synonyms = σ.synonyms := by
  unfold incrementRelationship
  cases mapGet σ.discoveredTopics t1 with
  | some md => by_cases hmem : t2 ∈ md.relatedTopics <;> simp [hmem]
  | none => rfl

theorem synonyms_pairFold (t : String) (rest : List String) (σ : TMState) :
    (rest.foldl
      (fun st t2 => incrementRelationship (incrementRelationship st t t2) t2 t)
      σ).synonyms = σ.synonyms := by
  induction rest generalizing σ with
  | nil => rfl
  | cons t2 rest2 ih =>
    rw [List.foldl_cons, ih, synonyms_incrementRelationship,
      synonyms_incrementRelationship]

theorem synonyms_updateTopicRelationships (ts : List String) (σ : TMState) :
    (updateTopicRelationships σ ts).synonyms = σ.synonyms := by
  induction ts generalizing σ with
  | nil => rfl
  | cons t rest ih =>
    rw [updateTopicRelationships, ih, synonyms_pairFold]

theorem synonyms_updateInterestLevel (σ : TMState) (now : ℕ) (topic : String) :
    (updateInterestLevel σ now topic).synonyms = σ.synonyms := by
  unfold updateInterestLevel
  cases mapGet σ.discoveredTopics topic <;> rfl

theorem synonyms_trackObservation (σ : TMState) (now : ℕ) (topics : List String) :
    (trackObservation σ now topics).synonyms = σ.synonyms := by
  unfold trackObservation
  generalize uniqueKeep (topics.map fun t => getCanonicalTopic σ t) = uts
  suffices hgen : ∀ (l : List String) (st : TMState),
      (l.foldl
        (fun st topic =>
          let st1 :=
            match mapGet st.discoveredTopics topic with
            | some metadata =>
              let md1 :=
                { metadata with
                  observationCount := metadata.observationCount + 1
                  mentionCount := metadata.mentionCount + 1
                  lastUpdated := now }
              updateInterestLevel
                { st with discoveredTopics := mapSet st.discoveredTopics topic md1 }
                now topic
            | none => st
          updateTopicRelationships st1 uts) st).synonyms = st.synonyms by
    exact hgen uts σ
  intro l
  induction l with
  | nil => intro st; rfl
  | cons topic rest ih =>
    intro st
    rw [List.foldl_cons, ih, synonyms_updateTopicRelationships]
    cases hmd : mapGet st.discoveredTopics topic with
    | none => simp [hmd]
    | some md => simp [hmd, synonyms_updateInterestLevel]

/-- Canonicalization unfolded. -/
theorem getCanonicalTopic_eq (σ : TMState) (topic : String) :
    getCanonicalTopic σ topic =
      if (mapGet σ.synonyms (normalizeTopic topic)).getD (normalizeTopic topic)
          = "" then
        normalizeTopic topic
      else
        (mapGet σ.synonyms (normalizeTopic topic)).getD (normalizeTopic topic) :=
  rfl

/-- Under the one-hop invariant, a canonical key is never a key of the
synonym map — provided the normalized topic does not carry an
empty-string synonym entry, in which case the falsy-value fallback makes
the canonical key the (still mapped) normalized key itself. -/
theorem canonical_not_syn_key (σ : TMState) (h : OneHop σ) (topic : String)
    (hemp : mapGet σ.synonyms (normalizeTopic topic) ≠ some "") :
    mapGet σ.synonyms (getCanonicalTopic σ topic) = none := by
  rw [getCanonicalTopic_eq]
  cases hn : mapGet σ.synonyms (normalizeTopic topic) with
  | none => simpa using hn
  | some c =>
    have hc : ¬c = "" := fun he => hemp (he ▸ hn)
    simp only [Option.getD_some, if_neg hc]
    exact h _ _ hn

theorem oneHop_mergeTopic (σ : TMState) (s t : String) (h : OneHop σ)
    (hval : ∀ k, mapGet σ.synonyms k ≠ some (getCanonicalTopic σ s))
    (hemp : mapGet σ.synonyms (normalizeTopic t) ≠ some "") :
    OneHop (mergeTopic σ s t).2 := by
  by_cases hne : getCanonicalTopic σ s = getCanonicalTopic σ t
  · have heq : (mergeTopic σ s t).2 = σ := by simp [mergeTopic, hne]
    rw [heq]
    exact h
  · cases hsmd : mapGet σ.discoveredTopics (getCanonicalTopic σ s) with
    | none =>
      have heq : (mergeTopic σ s t).2 = σ := by simp [mergeTopic, hne, hsmd]
      rw [heq]
      exact h
    | some smd =>
      cases htmd : mapGet σ.discoveredTopics (getCanonicalTopic σ t) with
      | none =>
        have heq : (mergeTopic σ s t).2 = σ := by simp [mergeTopic, hne, hsmd, htmd]
        rw [heq]
        exact h
      | some tmd =>
        have hsyn := mergeTopic_success_synonyms σ s t smd tmd hne hsmd htmd
        intro k v hkv
        rw [hsyn, mapGet_mapSet] at hkv ⊢
        by_cases hk : getCanonicalTopic σ s = k
        · rw [if_pos hk] at hkv
          have hv : v = getCanonicalTopic σ t := by
            cases hkv
            rfl
          subst hv
          rw [if_neg hne]
          exact canonical_not_syn_key σ h t hemp
        · rw [if_neg hk] at hkv
          have hvs : ¬getCanonicalTopic σ s = v := by
            intro hvs
            exact hval k (hvs ▸ hkv)
          rw [if_neg hvs]
          exact h k v hkv

/-! ### Claim C1: merge correctness -/

theorem canonical_of_no_syn (σ : TMState) (A : String)
    (h : mapGet σ.synonyms (normalizeTopic A) = none) :
    getCanonicalTopic σ A = normalizeTopic A := by
  rw [getCanonicalTopic_eq, h]
  simp

/-- C1 (amended): for topics A and B with distinct canonical keys that
are both live, where the source key A is not itself resolved through the
synonym table (its normalized form has no synonym entry) and B's
canonical key is not the empty string, a successful `mergeTopic(A, B)`
makes the two canonical resolutions agree, removes A's canonical key
from the live map, and gives the surviving topic a mention count equal
to the sum of the two previous mention counts.  Without the
synonym-table proviso the canonical-resolution clause of the original
claim is false (stale entries are never rewritten), and without the
nonempty-target proviso it is false as well: merging into the live
empty-string topic installs `A ↦ ""`, whose falsy value the lookup
`synonyms.get(n) || n` skips, so A keeps resolving to itself (see the
counterexample for both). -/
theorem claim_C1 (σ : TMState) (A B : String) (mdA mdB : TopicMetadata)
    (hsynA : mapGet σ.synonyms (normalizeTopic A) = none)
    (hliveA : mapGet σ.discoveredTopics (normalizeTopic A) = some mdA)
    (hliveB : mapGet σ.discoveredTopics (getCanonicalTopic σ B) = some mdB)
    (hne : normalizeTopic A ≠ getCanonicalTopic σ B)
    (hBne : getCanonicalTopic σ B ≠ "")
    (hnd : (σ.discoveredTopics.map Prod.fst).Nodup) :
    (mergeTopic σ A B).1 = true ∧
    getCanonicalTopic (mergeTopic σ A B).2 A = getCanonicalTopic (mergeTopic σ A B).2 B ∧
    mapGet (mergeTopic σ A B).2.discoveredTopics (normalizeTopic A) = none ∧
    ∃ md, mapGet (mergeTopic σ A B).2.discoveredTopics
        (getCanonicalTopic (mergeTopic σ A B).2 B) = some md ∧
      md.mentionCount = mdA.mentionCount + mdB.mentionCount := by
  have hcanA : getCanonicalTopic σ A = normalizeTopic A := canonical_of_no_syn σ A hsynA
  have hne2 : getCanonicalTopic σ A ≠ getCanonicalTopic σ B := by
    rw [hcanA]
    exact hne
  have hsm : mapGet σ.discoveredTopics (getCanonicalTopic σ A) = some mdA := by
    rw [hcanA]
    exact hliveA
  have hsyn := mergeTopic_success_synonyms σ A B mdA mdB hne2 hsm hliveB
  obtain ⟨md, hdisc, hmention, hobs⟩ :=
    mergeTopic_success_disc σ A B mdA mdB hne2 hsm hliveB
  have hA : getCanonicalTopic (mergeTopic σ A B).2 A = getCanonicalTopic σ B := by
    rw [getCanonicalTopic_eq (mergeTopic σ A B).2 A, hsyn, hcanA, mapGet_mapSet,
      if_pos rfl]
    simp only [Option.getD_some, if_neg hBne]
  have hB : getCanonicalTopic (mergeTopic σ A B).2 B = getCanonicalTopic σ B := by
    rw [getCanonicalTopic_eq (mergeTopic σ A B).2 B, hsyn, hcanA, mapGet_mapSet]
    by_cases hAB : normalizeTopic A = normalizeTopic B
    · exfalso
      apply hne
      rw [canonical_of_no_syn σ B (by rw [← hAB]; exact hsynA)]
      exact hAB
    · rw [if_neg hAB]
      exact (getCanonicalTopic_eq σ B).symm
  refine ⟨mergeTopic_success_fst σ A B mdA mdB hne2 hsm hliveB, ?_, ?_, ?_⟩
  · rw [hA, hB]
  · rw [hdisc, ← hcanA]
    exact mapGet_mapDelete_self _ _ (nodup_keys_mapSet _ _ _ hnd)
  · refine ⟨md, ?_, ?_⟩
    · rw [hB, hdisc, mapGet_mapDelete_ne _ _ _ hne2, mapGet_mapSet_self]
    · rw [hmention]
      omega

/-- C1 counterexample, two reachable failures of the claim's
canonical-resolution clause.  First, in `stateAfterXY` the topics `"x"`
(canonical key `"y"`, live) and `"z"` (canonical key `"z"`, live)
satisfy the claim's preconditions and `mergeTopic("x", "z")` returns
true, yet afterwards the two arguments resolve to different canonical
keys, because the stale entry `x ↦ y` is never rewritten.  Second, in
`stateEmpty` the topic `"x"` has no synonym entry, yet after the
successful `mergeTopic("x", "")` the installed entry `x ↦ ""` is falsy
and the lookup `synonyms.get(n) || n` skips it, so `"x"` still resolves
to `"x"` while `""` resolves to `""`. -/
theorem claim_C1_counterexample :
    (getCanonicalTopic stateAfterXY "x" = "y" ∧
      getCanonicalTopic stateAfterXY "z" = "z" ∧
      ("y" : String) ≠ "z" ∧
      (mapGet stateAfterXY.discoveredTopics "y").isSome = true ∧
      (mapGet stateAfterXY.discoveredTopics "z").isSome = true ∧
      (mergeTopic stateAfterXY "x" "z").1 = true ∧
      getCanonicalTopic (mergeTopic stateAfterXY "x" "z").2 "x" ≠
        getCanonicalTopic (mergeTopic stateAfterXY "x" "z").2 "z") ∧
    (mapGet stateEmpty.synonyms (normalizeTopic "x") = none ∧
      (mapGet stateEmpty.discoveredTopics "x").isSome = true ∧
      (mapGet stateEmpty.discoveredTopics "").isSome = true ∧
      (mergeTopic stateEmpty "x" "").1 = true ∧
      mapGet (mergeTopic stateEmpty "x" "").2.synonyms "x" = some "" ∧
      getCanonicalTopic (mergeTopic stateEmpty "x" "").2 "x" = "x" ∧
      getCanonicalTopic (mergeTopic stateEmpty "x" "").2 "" = "" ∧
      ("x" : String) ≠ "") := by
  decide

/-- C1 witness: the amended claim applied to the concrete two-topic
state `statePQ`, merging `"p"` into `"q"`. -/
theorem claim_C1_witness :
    (mergeTopic statePQ "p" "q").1 = true ∧
    getCanonicalTopic (mergeTopic statePQ "p" "q").2 "p" =
      getCanonicalTopic (mergeTopic statePQ "p" "q").2 "q" ∧
    mapGet (mergeTopic statePQ "p" "q").2.discoveredTopics (normalizeTopic "p") = none ∧
    ∃ md, mapGet (mergeTopic statePQ "p" "q").2.discoveredTopics
        (getCanonicalTopic (mergeTopic statePQ "p" "q").2 "q") = some md ∧
      md.mentionCount = mdFresh.mentionCount + mdFresh.mentionCount :=
  claim_C1 statePQ "p" "q" mdFresh mdFresh (by decide) rfl rfl (by decide)
    (by decide) (by decide)

/-! ### Claim C2: one-hop synonym resolution -/

/-- C2 counterexample: after the reachable operation sequence behind
`stateChain` (three `addTopic` calls, then `mergeTopic("x","y")`, then
`mergeTopic("y","z")`), the synonym value `"y"` is itself a synonym key,
so resolution through at most one hop does not reach a mapping-free key. -/
theorem claim_C2_counterexample :
    mapGet stateChain.synonyms "x" = some "y" ∧
    mapGet stateChain.synonyms "y" = some "z" ∧
    ¬ OneHop stateChain := by
  refine ⟨by decide, by decide, fun h => ?_⟩
  exact absurd (h "x" "y" (by decide)) (by decide)

/-- C2 (amended): the one-hop property is preserved by `addTopic` and by
`trackObservation` (which never touch the synonym map), and by
`mergeTopic` provided the canonical key of the merge source is not the
value of any existing synonym entry and the normalized target carries no
empty-string synonym entry.  Without the first proviso `mergeTopic`
leaves stale entries pointing at the deleted source and the invariant
fails on reachable states (see the counterexample); without the second,
the falsy lookup `synonyms.get(n) || n` canonicalizes the target to a
key that is still mapped, and installing an entry whose value is that
key again breaks the invariant. -/
theorem claim_C2 :
    (∀ σ now topic core, OneHop σ → OneHop (addTopic σ now topic core).2) ∧
    (∀ σ now topics, OneHop σ → OneHop (trackObservation σ now topics)) ∧
    (∀ σ s t, OneHop σ →
      (∀ k, mapGet σ.synonyms k ≠ some (getCanonicalTopic σ s)) →
      mapGet σ.synonyms (normalizeTopic t) ≠ some "" →
      OneHop (mergeTopic σ s t).2) := by
  refine ⟨?_, ?_, fun σ s t h hval hemp => oneHop_mergeTopic σ s t h hval hemp⟩
  · intro σ now topic core h k v hkv
    rw [synonyms_addTopic] at hkv ⊢
    exact h k v hkv
  · intro σ now topics h k v hkv
    rw [synonyms_trackObservation] at hkv ⊢
    exact h k v hkv

/-- C2 witness: the amended preservation statements applied to concrete
states. -/
theorem claim_C2_witness :
    OneHop (addTopic emptyState 0 "w" false).2 ∧
    OneHop (mergeTopic stateXYZ "x" "y").2 := by
  have hz : stateXYZ.synonyms = [] := by decide
  constructor
  · apply claim_C2.1
    intro k v hkv
    simp [emptyState, mapGet] at hkv
  · apply claim_C2.2.2
    · intro k v hkv
      rw [hz] at hkv
      simp [mapGet] at hkv
    · intro k
      rw [hz]
      simp [mapGet]
    · rw [hz]
      simp [mapGet]

/-! ### Claim C3: relationship increments per observation -/

/-- C3: evaluation of the code at the failing input.  For a single
observation containing exactly the two distinct live topics `"p"` and
`"q"`, both directed edges between them grow from 0 to 2, not to 1: the
source calls `updateTopicRelationships` once per element of the set,
inside `forEach`, so every pair is incremented once per topic in the
observation. -/
theorem claim_C3 :
    edgeW statePQ "p" "q" = 0 ∧ edgeW statePQ "q" "p" = 0 ∧
    edgeW statePQObs "p" "q" = 2 ∧ edgeW statePQObs "q" "p" = 2 := by
  decide

/-! ### Claim C4: co-occurrence symmetry -/

/-- C4 counterexample: a reachable asymmetric state.  Tracking an
observation of two unregistered topics creates the symmetric edges
`x ↔ y`, but a subsequent `addTopic("x")` resets `x`'s adjacency row to
empty, leaving `weight(y → x) = 2` while `weight(x → y) = 0`. -/
theorem claim_C4_counterexample :
    edgeW stateReset "y" "x" = 2 ∧ edgeW stateReset "x" "y" = 0 ∧
    ¬ Symm stateReset := by
  refine ⟨by decide, by decide, fun h => absurd (h "x" "y") (by decide)⟩

/-- C4 (amended): the two graph-touching operations named by the claim
do preserve symmetry — `trackObservation` always, and `mergeTopic` on
any symmetric state whose relationship maps are duplicate-free (as
JavaScript `Map`s are).  The claim's universal reachable-state invariant
is nevertheless false because `addTopic` can reset an implicitly created
adjacency row (see the counterexample). -/
theorem claim_C4 :
    (∀ σ now topics, Symm σ → Symm (trackObservation σ now topics)) ∧
    (∀ σ s t, Symm σ → RelWF σ → Symm (mergeTopic σ s t).2) :=
  ⟨fun σ now topics h => symm_trackObservation σ now topics h,
   fun σ s t h hwf => symm_mergeTopic σ s t h hwf⟩

/-- C4 witness: both amended preservation statements applied to concrete
states. -/
theorem claim_C4_witness :
    Symm (trackObservation emptyState 0 ["p", "q"]) ∧
    Symm (mergeTopic statePQ "p" "q").2 := by
  constructor
  · exact claim_C4.1 emptyState 0 ["p", "q"] (fun a b => rfl)
  · apply claim_C4.2
    · intro a b
      have h0 : ∀ u v : String, edgeW statePQ u v = 0 := by
        intro u v
        have hr : statePQ.topicRelationships = [("p", []), ("q", [])] := by decide
        simp only [edgeW, hr]
        by_cases hu1 : ("p" : String) = u <;> by_cases hu2 : ("q" : String) = u <;>
          simp [mapGet, hu1, hu2]
      rw [h0 a b, h0 b a]
    · constructor
      · decide
      · decide

/-! ### Claim C9: merge guard and atomic failure -/

/-- C9: `mergeTopic` returns false exactly when the two arguments
canonicalize to the same key or when either canonical key has no live
topic record, and every false-returning call leaves the state
unchanged. -/
theorem claim_C9 (σ : TMState) (s t : String) :
    ((mergeTopic σ s t).1 = false ↔
      getCanonicalTopic σ s = getCanonicalTopic σ t ∨
        mapGet σ.discoveredTopics (getCanonicalTopic σ s) = none ∨
        mapGet σ.discoveredTopics (getCanonicalTopic σ t) = none) ∧
    ((mergeTopic σ s t).1 = false → (mergeTopic σ s t).2 = σ) := by
  refine ⟨⟨?_, ?_⟩, mergeTopic_false_state σ s t⟩
  · intro hf
    by_cases h1 : getCanonicalTopic σ s = getCanonicalTopic σ t
    · exact Or.inl h1
    · cases hs : mapGet σ.discoveredTopics (getCanonicalTopic σ s) with
      | none => exact Or.inr (Or.inl rfl)
      | some smd =>
        cases ht : mapGet σ.discoveredTopics (getCanonicalTopic σ t) with
        | none => exact Or.inr (Or.inr rfl)
        | some tmd =>
          rw [mergeTopic_success_fst σ s t smd tmd h1 hs ht] at hf
          simp at hf
  · intro hor
    rcases hor with h1 | hs | ht
    · simp [mergeTopic, h1]
    · by_cases h1 : getCanonicalTopic σ s = getCanonicalTopic σ t
      · simp [mergeTopic, h1]
      · simp [mergeTopic, h1, hs]
    · by_cases h1 : getCanonicalTopic σ s = getCanonicalTopic σ t
      · simp [mergeTopic, h1]
      · cases hs : mapGet σ.discoveredTopics (getCanonicalTopic σ s) with
        | none => simp [mergeTopic, h1, hs]
        | some smd => simp [mergeTopic, h1, hs, ht]

/-- C9 witness: merging a topic with itself fails and leaves the
concrete state `statePQ` untouched. -/
theorem claim_C9_witness :
    (mergeTopic statePQ "p" "p").1 = false ∧
    (mergeTopic statePQ "p" "p").2 = statePQ := by
  have hf : (mergeTopic statePQ "p" "p").1 = false :=
    (claim_C9 statePQ "p" "p").1.mpr (Or.inl rfl)
  exact ⟨hf, (claim_C9 statePQ "p" "p").2 hf⟩

/-! ### Claim C10: self-edges created by merging -/

/-- C10: in the reachable state `statePQObs` the live topics `"p"` and
`"q"` share a nonzero co-occurrence edge; `mergeTopic("p", "q")`
succeeds and leaves a nonzero self-edge `q → q` in the surviving row,
and `getRelatedTopics("q")` then lists `"q"` among its own related
topics. -/
theorem claim_C10 :
    edgeW statePQObs "p" "q" = 2 ∧ edgeW statePQObs "q" "p" = 2 ∧
    (mergeTopic statePQObs "p" "q").1 = true ∧
    edgeW (mergeTopic statePQObs "p" "q").2 "q" "q" = 4 ∧
    "q" ∈ getRelatedTopics (mergeTopic statePQObs "p" "q").2 "q" 5 := by
  decide

/-! ### Split and join on the space character -/

theorem splitSp_ne_nil (l : List Char) : splitSp l ≠ [] := by
  cases l with
  | nil => simp [splitSp]
  | cons c rest =>
    rw [splitSp]
    cases splitSp rest with
    | nil => simp
    | cons w ws => by_cases hc : c = ' ' <;> simp [hc]

theorem joinSp_cons (c : Char) (w : List Char) (ws : List (List Char)) :
    joinSp ((c :: w) :: ws) = c :: joinSp (w :: ws) := by
  cases ws <;> rfl

theorem joinSp_nil_cons (w : List Char) (ws : List (List Char)) :
    joinSp ([] :: w :: ws) = ' ' :: joinSp (w :: ws) := rfl

theorem joinSp_splitSp (l : List Char) : joinSp (splitSp l) = l := by
  induction l with
  | nil => rfl
  | cons c rest ih =>
    rw [splitSp]
    cases hs : splitSp rest with
    | nil => exact absurd hs (splitSp_ne_nil rest)
    | cons w ws =>
      dsimp only
      by_cases hc : c = ' '
      · subst hc
        rw [if_pos rfl, joinSp_nil_cons, ← hs, ih]
      · rw [if_neg hc, joinSp_cons, ← hs, ih]

/-! ### Claim C6: the stop-word guard -/

/-- C6 (amended): stop-word removal is applied exactly when the cleaned
form has more than one space-split token, regardless of whether any
non-stop-word would remain.  Hence for an input whose cleaned form
consists solely of stop-words, `normalizeTopic` returns the cleaned
string when it is a single token, but returns the empty string when it
has several tokens — not the cleaned string, as the original claim
states (see the counterexample). -/
theorem claim_C6 (s : String)
    (hstop : ∀ w ∈ splitSp (cleanL s.data), w ∈ stopWordsL) :
    normalizeTopic s =
      if (splitSp (cleanL s.data)).length ≤ 1 then cleanStr s else "" := by
  by_cases hlen : 1 < (splitSp (cleanL s.data)).length
  · rw [if_neg (by omega)]
    show (⟨normalizeL s.data⟩ : String) = ""
    have hfil : (splitSp (cleanL s.data)).filter
        (fun w => !stopWordsL.contains w) = [] := by
      rw [List.filter_eq_nil_iff]
      intro w hw
      have hmem := hstop w hw
      simp [List.contains, List.elem_eq_mem, hmem]
    rw [normalizeL, stopPhaseL]
    simp only [if_pos hlen, hfil]
    rfl
  · rw [if_pos (by omega)]
    show (⟨normalizeL s.data⟩ : String) = cleanStr s
    rw [normalizeL, stopPhaseL]
    simp only [if_neg hlen]
    rw [joinSp_splitSp]
    rfl

/-- C6 counterexample: `"the and"` cleans to itself and consists solely
of stop-words, yet `normalizeTopic` returns the empty string rather
than the cleaned string. -/
theorem claim_C6_counterexample :
    cleanStr "the and" = "the and" ∧
    (∀ w ∈ splitSp (cleanL ("the and").data), w ∈ stopWordsL) ∧
    normalizeTopic "the and" = "" ∧
    ("" : String) ≠ "the and" := by
  refine ⟨by decide, by decide, by decide, by decide⟩

/-- C6 witness: the amended claim applied to the concrete input
`"the and"`. -/
theorem claim_C6_witness :
    normalizeTopic "the and" =
      if (splitSp (cleanL ("the and").data)).length ≤ 1 then cleanStr "the and"
      else "" :=
  claim_C6 "the and" (by decide)

/-! ### Character-class facts for the normalizer -/

theorem uint32_le_iff (a b : UInt32) : a ≤ b ↔ a.toNat ≤ b.toNat := by
  rw [UInt32.le_def, BitVec.le_def]
  rfl

theorem isLower_iff (c : Char) : c.isLower = true ↔ 97 ≤ c.toNat ∧ c.toNat ≤ 122 := by
  simp only [Char.isLower, Bool.and_eq_true, decide_eq_true_eq, uint32_le_iff, Char.toNat]
  norm_num [UInt32.size]

theorem toNat_Char_ofNat (n : ℕ) (h : n.isValidChar) : (Char.ofNat n).toNat = n := by
  rw [Char.ofNat, dif_pos h]
  rfl

theorem toLower_eq_self_of_not (c : Char) (h : ¬(65 ≤ c.toNat ∧ c.toNat ≤ 90)) :
    c.toLower = c := by
  rw [Char.toLower, if_neg h]

theorem toNat_toLower_of_upper (c : Char) (h : 65 ≤ c.toNat ∧ c.toNat ≤ 90) :
    c.toLower.toNat = c.toNat + 32 := by
  rw [Char.toLower, if_pos h, toNat_Char_ofNat]
  left
  omega

theorem toLower_toLower (c : Char) : c.toLower.toLower = c.toLower := by
  by_cases h : 65 ≤ c.toNat ∧ c.toNat ≤ 90
  · have h1 := toNat_toLower_of_upper c h
    apply toLower_eq_self_of_not
    rw [h1]
    omega
  · rw [toLower_eq_self_of_not c h, toLower_eq_self_of_not c h]

theorem isWordChar_toLower (c : Char) (h : isWordChar c = true) :
    isWordChar c.toLower = true := by
  by_cases hu : 65 ≤ c.toNat ∧ c.toNat ≤ 90
  · have h1 := toNat_toLower_of_upper c hu
    have hl : c.toLower.isLower = true := by
      rw [isLower_iff, h1]
      omega
    simp [isWordChar, Char.isAlpha, hl]
  · rw [toLower_eq_self_of_not c hu]
    exact h

theorem toLower_of_ws (c : Char) (h : isWsChar c = true) : c.toLower = c := by
  simp only [isWsChar, Bool.or_eq_true, decide_eq_true_eq] at h
  rcases h with ((h | h) | h) | h <;> subst h <;> decide

theorem wordChar_not_ws (c : Char) (h : isWordChar c = true) : isWsChar c = false := by
  cases hw : isWsChar c
  · rfl
  · exfalso
    simp only [isWsChar, Bool.or_eq_true, decide_eq_true_eq] at hw
    rcases hw with ((h1 | h1) | h1) | h1 <;> subst h1 <;> exact absurd h (by decide)

/-! ### Shape facts about the cleaning pipeline -/

theorem noDoubleWs_cons_iff (a : Char) (l : List Char) :
    noDoubleWs (a :: l) = true ↔
      ((isWsChar a = false ∨ headNotWs l = true) ∧ noDoubleWs l = true) := by
  cases l with
  | nil => simp [noDoubleWs, headNotWs]
  | cons b r =>
    simp only [noDoubleWs, headNotWs, Bool.and_eq_true, Bool.not_eq_true']
    constructor
    · intro h
      refine ⟨?_, h.2⟩
      rcases Bool.and_eq_false_iff.mp h.1 with h1 | h1
      · exact Or.inl h1
      · exact Or.inr (by simp [h1])
    · intro h
      refine ⟨?_, h.2⟩
      rcases h.1 with h1 | h1
      · exact Bool.and_eq_false_iff.mpr (Or.inl h1)
      · exact Bool.and_eq_false_iff.mpr (Or.inr (by simpa using h1))

theorem mem_collapseAux (l : List Char) (b : Bool) (c : Char)
    (hc : c ∈ collapseAux l b) : c = ' ' ∨ (c ∈ l ∧ isWsChar c = false) := by
  induction l generalizing b with
  | nil => simp [collapseAux] at hc
  | cons c0 rest ih =>
    rw [collapseAux] at hc
    by_cases hw : isWsChar c0 = true
    · rw [if_pos hw] at hc
      cases b with
      | true =>
        simp only [if_pos rfl] at hc
        rcases ih true hc with h | h
        · exact Or.inl h
        · exact Or.inr ⟨List.mem_cons_of_mem _ h.1, h.2⟩
      | false =>
        simp only [Bool.false_eq_true, if_false, List.mem_cons] at hc
        rcases hc with h | h
        · exact Or.inl h
        · rcases ih true h with h2 | h2
          · exact Or.inl h2
          · exact Or.inr ⟨List.mem_cons_of_mem _ h2.1, h2.2⟩
    · rw [if_neg hw] at hc
      rcases List.mem_cons.mp hc with h | h
      · subst h
        exact Or.inr ⟨List.mem_cons_self _ _, by simpa using hw⟩
      · rcases ih false h with h2 | h2
        · exact Or.inl h2
        · exact Or.inr ⟨List.mem_cons_of_mem _ h2.1, h2.2⟩

theorem headNotWs_collapseAux_true (l : List Char) :
    headNotWs (collapseAux l true) = true := by
  induction l with
  | nil => rfl
  | cons c rest ih =>
    rw [collapseAux]
    by_cases hw : isWsChar c = true
    · rw [if_pos hw, if_pos rfl]
      exact ih
    · rw [if_neg hw]
      simpa [headNotWs] using hw

theorem noDoubleWs_collapseAux (l : List Char) (b : Bool) :
    noDoubleWs (collapseAux l b) = true := by
  induction l generalizing b with
  | nil => rfl
  | cons c rest ih =>
    rw [collapseAux]
    by_cases hw : isWsChar c = true
    · rw [if_pos hw]
      cases b with
      | true => exact ih true
      | false =>
        simp only [Bool.false_eq_true, if_false]
        rw [noDoubleWs_cons_iff]
        exact ⟨Or.inr (headNotWs_collapseAux_true rest), ih true⟩
    · rw [if_neg hw]
      rw [noDoubleWs_cons_iff]
      exact ⟨Or.inl (by simpa using hw), ih false⟩

theorem headNotWs_collapseAux_false (l : List Char) (h : headNotWs l = true) :
    headNotWs (collapseAux l false) = true := by
  cases l with
  | nil => rfl
  | cons c rest =>
    have hw : isWsChar c = false := by simpa [headNotWs] using h
    rw [collapseAux, if_neg (by simp [hw])]
    simpa [headNotWs] using hw

theorem headNotWs_dropWhile (l : List Char) :
    headNotWs (l.dropWhile isWsChar) = true := by
  induction l with
  | nil => rfl
  | cons c rest ih =>
    rw [List.dropWhile_cons]
    by_cases hw : isWsChar c = true
    · rw [if_pos hw]
      exact ih
    · rw [if_neg hw]
      simpa [headNotWs] using hw

theorem dropWhile_append_last (p : Char → Bool) (xs : List Char) (c : Char)
    (hc : p c = false) : ∃ ys, List.dropWhile p (xs ++ [c]) = ys ++ [c] := by
  induction xs with
  | nil =>
    refine ⟨[], ?_⟩
    simp [List.dropWhile_cons, hc]
  | cons x xs ih =>
    rw [List.cons_append, List.dropWhile_cons]
    by_cases hx : p x = true
    · rw [if_pos hx]
      exact ih
    · rw [if_neg hx]
      exact ⟨x :: xs, rfl⟩

theorem dropWhile_eq_self_of_head (l : List Char) (h : headNotWs l = true) :
    l.dropWhile isWsChar = l := by
  cases l with
  | nil => rfl
  | cons c rest =>
    have hw : isWsChar c = false := by simpa [headNotWs] using h
    rw [List.dropWhile_cons, if_neg (by simp [hw])]

theorem headNotWs_trimL (l : List Char) : headNotWs (trimL l) = true := by
  rw [trimL]
  cases hm : l.dropWhile isWsChar with
  | nil => rfl
  | cons c rest =>
    have hc : isWsChar c = false := by
      have := headNotWs_dropWhile l
      rw [hm] at this
      simpa [headNotWs] using this
    rw [List.reverse_cons]
    obtain ⟨ys, hys⟩ := dropWhile_append_last isWsChar rest.reverse c hc
    rw [hys, List.reverse_append]
    simpa [headNotWs] using hc

theorem trail_trimL (l : List Char) : headNotWs (trimL l).reverse = true := by
  rw [trimL, List.reverse_reverse]
  exact headNotWs_dropWhile _

theorem mem_trimL (l : List Char) (c : Char) (h : c ∈ trimL l) : c ∈ l := by
  rw [trimL] at h
  rw [List.mem_reverse] at h
  have h2 := (List.dropWhile_sublist _).subset h
  rw [List.mem_reverse] at h2
  exact (List.dropWhile_sublist _).subset h2

theorem trail_cons_ne (c : Char) (l : List Char) (h : l ≠ []) :
    headNotWs (c :: l).reverse = headNotWs l.reverse := by
  rw [List.reverse_cons]
  cases hr : l.reverse with
  | nil => exact absurd (by simpa using hr) h
  | cons d r => rfl

theorem collapseAux_ne_nil (l : List Char) : ∀ (b : Bool),
    (∃ c0 ∈ l, isWsChar c0 = false) → collapseAux l b ≠ [] := by
  induction l with
  | nil =>
    intro b h
    simp at h
  | cons c rest ih =>
    intro b h
    rw [collapseAux]
    by_cases hw : isWsChar c = true
    · rw [if_pos hw]
      have hr : ∃ c0 ∈ rest, isWsChar c0 = false := by
        rcases h with ⟨c0, hm, hc0⟩
        rcases List.mem_cons.mp hm with he | he
        · subst he
          rw [hw] at hc0
          cases hc0
        · exact ⟨c0, he, hc0⟩
      cases b with
      | true => exact ih true hr
      | false => simp
    · rw [if_neg hw]
      simp

theorem trail_collapseAux (l : List Char) : ∀ (b : Bool),
    headNotWs l.reverse = true → headNotWs (collapseAux l b).reverse = true := by
  induction l with
  | nil => intro b h; rfl
  | cons c rest ih =>
    intro b h
    cases rest with
    | nil =>
      have hc : isWsChar c = false := by simpa [headNotWs] using h
      rw [collapseAux, if_neg (by simp [hc])]
      simpa [collapseAux, headNotWs] using hc
    | cons d rest2 =>
      have hner : (d :: rest2) ≠ [] := by simp
      rw [trail_cons_ne c _ hner] at h
      rw [collapseAux]
      by_cases hw : isWsChar c = true
      · rw [if_pos hw]
        cases b with
        | true => exact ih true h
        | false =>
          simp only [Bool.false_eq_true, if_false]
          have hlast : ∃ c0 ∈ (d :: rest2), isWsChar c0 = false := by
            cases hr2 : (d :: rest2).reverse with
            | nil => simp at hr2
            | cons e r2 =>
              have he : isWsChar e = false := by
                rw [hr2] at h
                simpa [headNotWs] using h
              have hmem : e ∈ (d :: rest2) := by
                have h3 : e ∈ (d :: rest2).reverse := by
                  rw [hr2]
                  exact List.mem_cons_self _ _
                exact List.mem_reverse.mp h3
              exact ⟨e, hmem, he⟩
          have hne2 : collapseAux (d :: rest2) true ≠ [] :=
            collapseAux_ne_nil _ true hlast
          rw [trail_cons_ne ' ' _ hne2]
          exact ih true h
      · rw [if_neg hw]
        by_cases hne2 : collapseAux (d :: rest2) false = []
        · rw [hne2]
          simpa [headNotWs] using hw
        · rw [trail_cons_ne c _ hne2]
          exact ih false h

theorem collapseAux_eq_self (l : List Char)
    (hws : ∀ c ∈ l, isWsChar c = true → c = ' ')
    (hnd : noDoubleWs l = true) :
    collapseAux l false = l ∧ (headNotWs l = true → collapseAux l true = l) := by
  induction l with
  | nil => exact ⟨rfl, fun _ => rfl⟩
  | cons c rest ih =>
    have hws2 : ∀ c2 ∈ rest, isWsChar c2 = true → c2 = ' ' :=
      fun c2 h2 hw => hws c2 (List.mem_cons_of_mem _ h2) hw
    have hnd0 := (noDoubleWs_cons_iff c rest).mp hnd
    obtain ⟨ih1, ih2⟩ := ih hws2 hnd0.2
    have hmain : collapseAux (c :: rest) false = c :: rest := by
      by_cases hw : isWsChar c = true
      · have hc : c = ' ' := hws c (List.mem_cons_self _ _) hw
        have hh : headNotWs rest = true := by
          rcases hnd0.1 with h1 | h1
          · rw [hw] at h1
            cases h1
          · exact h1
        subst hc
        rw [collapseAux, if_pos hw]
        simp only [Bool.false_eq_true, if_false]
        rw [ih2 hh]
      · rw [collapseAux, if_neg (by simp [hw]), ih1]
    refine ⟨hmain, fun hh => ?_⟩
    have hw : isWsChar c = false := by simpa [headNotWs] using hh
    rw [collapseAux, if_neg (by simp [hw]), ih1]

theorem stripL_eq_self (l : List Char)
    (h : ∀ c ∈ l, (isWordChar c || isWsChar c) = true) : stripL l = l :=
  List.filter_eq_self.mpr h

theorem lowerStr_eq_self (l : List Char) (h : ∀ c ∈ l, c.toLower = c) :
    lowerStr l = l := by
  rw [lowerStr]
  conv_rhs => rw [← List.map_id l]
  exact List.map_congr_left h

theorem trimL_eq_self (l : List Char) (hh : headNotWs l = true)
    (ht : headNotWs l.reverse = true) : trimL l = l := by
  rw [trimL, dropWhile_eq_self_of_head l hh, dropWhile_eq_self_of_head _ ht,
    List.reverse_reverse]

/-! ### Token-level facts about `splitSp` and `joinSp` -/

theorem mem_of_mem_splitSp (l : List Char) (w : List Char) (c : Char)
    (hw : w ∈ splitSp l) (hc : c ∈ w) : c ∈ l := by
  induction l generalizing w with
  | nil =>
    simp only [splitSp, List.mem_singleton] at hw
    subst hw
    simp at hc
  | cons c0 rest ih =>
    rw [splitSp] at hw
    cases hs : splitSp rest with
    | nil => exact absurd hs (splitSp_ne_nil rest)
    | cons w0 ws0 =>
      rw [hs] at hw
      dsimp only at hw
      by_cases hc0 : c0 = ' '
      · rw [if_pos hc0] at hw
        rcases List.mem_cons.mp hw with h | h
        · subst h
          simp at hc
        · exact List.mem_cons_of_mem _ (ih w (hs ▸ h) hc)
      · rw [if_neg hc0] at hw
        rcases List.mem_cons.mp hw with h | h
        · subst h
          rcases List.mem_cons.mp hc with h2 | h2
          · subst h2
            exact List.mem_cons_self _ _
          · exact List.mem_cons_of_mem _
              (ih w0 (hs ▸ List.mem_cons_self w0 ws0) h2)
        · exact List.mem_cons_of_mem _
            (ih w (hs ▸ List.mem_cons_of_mem w0 h) hc)

theorem splitSp_no_space (l : List Char) (w : List Char) (hw : w ∈ splitSp l) :
    ' ' ∉ w := by
  induction l generalizing w with
  | nil =>
    simp only [splitSp, List.mem_singleton] at hw
    subst hw
    simp
  | cons c0 rest ih =>
    rw [splitSp] at hw
    cases hs : splitSp rest with
    | nil => exact absurd hs (splitSp_ne_nil rest)
    | cons w0 ws0 =>
      rw [hs] at hw
      dsimp only at hw
      by_cases hc0 : c0 = ' '
      · rw [if_pos hc0] at hw
        rcases List.mem_cons.mp hw with h | h
        · subst h
          simp
        · exact ih w (hs ▸ h)
      · rw [if_neg hc0] at hw
        rcases List.mem_cons.mp hw with h | h
        · subst h
          intro hsp
          rcases List.mem_cons.mp hsp with h2 | h2
          · exact hc0 h2.symm
          · exact ih w0 (hs ▸ List.mem_cons_self w0 ws0) h2
        · exact ih w (hs ▸ List.mem_cons_of_mem w0 h)

theorem splitSp_singleton_of_no_space (l : List Char) (h : ' ' ∉ l) :
    splitSp l = [l] := by
  induction l with
  | nil => rfl
  | cons c rest ih =>
    have hc : ¬c = ' ' := fun he => h (he ▸ List.mem_cons_self _ _)
    rw [splitSp, ih (fun hm => h (List.mem_cons_of_mem _ hm))]
    dsimp only
    rw [if_neg hc]

theorem splitSp_append_cons (w : List Char) (h : ' ' ∉ w) (l : List Char) :
    splitSp (w ++ ' ' :: l) = w :: splitSp l := by
  induction w with
  | nil =>
    rw [List.nil_append, splitSp]
    cases hs : splitSp l with
    | nil => exact absurd hs (splitSp_ne_nil l)
    | cons w0 ws0 =>
      dsimp only
      rw [if_pos rfl, ← hs]
  | cons c w2 ih =>
    have hc : ¬c = ' ' := fun he => h (he ▸ List.mem_cons_self _ _)
    have hw2 : ' ' ∉ w2 := fun hm => h (List.mem_cons_of_mem _ hm)
    rw [List.cons_append, splitSp, ih hw2]
    dsimp only
    rw [if_neg hc]

theorem splitSp_joinSp (ws : List (List Char)) (hne : ws ≠ [])
    (h : ∀ w ∈ ws, ' ' ∉ w) : splitSp (joinSp ws) = ws := by
  induction ws with
  | nil => exact absurd rfl hne
  | cons w ws2 ih =>
    cases ws2 with
    | nil =>
      rw [show joinSp [w] = w from rfl]
      exact splitSp_singleton_of_no_space w (h w (List.mem_cons_self _ _))
    | cons w2 ws3 =>
      rw [show joinSp (w :: w2 :: ws3) = w ++ ' ' :: joinSp (w2 :: ws3) from rfl,
        splitSp_append_cons w (h w (List.mem_cons_self _ _)),
        ih (by simp) (fun w3 hw3 => h w3 (List.mem_cons_of_mem _ hw3))]

theorem splitSp_tokens_nonempty_aux : ∀ (n : ℕ) (l : List Char), l.length ≤ n →
    headNotWs l = true → headNotWs l.reverse = true → noDoubleWs l = true →
    (∀ c ∈ l, isWsChar c = true → c = ' ') → l ≠ [] →
    ∀ w ∈ splitSp l, w ≠ [] := by
  intro n
  induction n with
  | zero =>
    intro l hl _ _ _ _ hne
    have heq : l = [] := List.length_eq_zero.mp (by omega)
    exact absurd heq hne
  | succ n ih =>
    intro l hl hh htr hnd hws hne w hw
    cases l with
    | nil => exact absurd rfl hne
    | cons c rest =>
      have hc : isWsChar c = false := by simpa [headNotWs] using hh
      have hcsp : ¬c = ' ' := by
        intro he
        subst he
        simp [isWsChar] at hc
      rw [splitSp] at hw
      cases hs : splitSp rest with
      | nil => exact absurd hs (splitSp_ne_nil rest)
      | cons w0 ws0 =>
        rw [hs] at hw
        dsimp only at hw
        rw [if_neg hcsp] at hw
        rcases List.mem_cons.mp hw with hw1 | hw2
        · subst hw1
          simp
        · cases rest with
          | nil =>
            injection hs with h1 h2
            rw [← h2] at hw2
            simp at hw2
          | cons d rest2 =>
            by_cases hd : d = ' '
            · subst hd
              have hsp2 : splitSp (' ' :: rest2) = [] :: splitSp rest2 := by
                rw [splitSp]
                cases hs2 : splitSp rest2 with
                | nil => exact absurd hs2 (splitSp_ne_nil rest2)
                | cons a b =>
                  dsimp only
                  rw [if_pos rfl, ← hs2]
              rw [hsp2] at hs
              injection hs with h1 h2
              rw [← h2] at hw2
              have hr2ne : rest2 ≠ [] := by
                intro he
                subst he
                simp [headNotWs, isWsChar] at htr
              have hndtail := ((noDoubleWs_cons_iff c (' ' :: rest2)).mp hnd).2
              have hnd2 := (noDoubleWs_cons_iff ' ' rest2).mp hndtail
              have hh2 : headNotWs rest2 = true := by
                rcases hnd2.1 with h3 | h3
                · simp [isWsChar] at h3
                · exact h3
              have htr2 : headNotWs rest2.reverse = true := by
                rw [trail_cons_ne c (' ' :: rest2) (by simp),
                  trail_cons_ne ' ' rest2 hr2ne] at htr
                exact htr
              have hws2 : ∀ c2 ∈ rest2, isWsChar c2 = true → c2 = ' ' :=
                fun c2 hm hw3 =>
                  hws c2 (List.mem_cons_of_mem _ (List.mem_cons_of_mem _ hm)) hw3
              have hlen2 : rest2.length ≤ n := by
                simp only [List.length_cons] at hl
                omega
              exact ih rest2 hlen2 hh2 htr2 hnd2.2 hws2 hr2ne w hw2
            · have hd2 : isWsChar d = false := by
                cases hdw : isWsChar d
                · rfl
                · exact absurd
                    (hws d (List.mem_cons_of_mem _ (List.mem_cons_self _ _)) hdw) hd
              have hh2 : headNotWs (d :: rest2) = true := by simp [headNotWs, hd2]
              have htr2 : headNotWs (d :: rest2).reverse = true := by
                rw [trail_cons_ne c (d :: rest2) (by simp)] at htr
                exact htr
              have hnd2 : noDoubleWs (d :: rest2) = true :=
                ((noDoubleWs_cons_iff c (d :: rest2)).mp hnd).2
              have hws2 : ∀ c2 ∈ (d :: rest2), isWsChar c2 = true → c2 = ' ' :=
                fun c2 hm hw3 => hws c2 (List.mem_cons_of_mem _ hm) hw3
              have hlen2 : (d :: rest2).length ≤ n := by
                simp only [List.length_cons] at hl ⊢
                omega
              have hw3 : w ∈ splitSp (d :: rest2) := by
                rw [hs]
                exact List.mem_cons_of_mem _ hw2
              exact ih (d :: rest2) hlen2 hh2 htr2 hnd2 hws2 (by simp) w hw3

theorem mem_joinSp (ws : List (List Char)) (c : Char) (hc : c ∈ joinSp ws) :
    c = ' ' ∨ ∃ w ∈ ws, c ∈ w := by
  induction ws with
  | nil => simp [joinSp] at hc
  | cons w ws2 ih =>
    cases ws2 with
    | nil => exact Or.inr ⟨w, List.mem_cons_self _ _, hc⟩
    | cons w2 ws3 =>
      rw [show joinSp (w :: w2 :: ws3) = w ++ ' ' :: joinSp (w2 :: ws3) from rfl] at hc
      rcases List.mem_append.mp hc with h1 | h1
      · exact Or.inr ⟨w, List.mem_cons_self _ _, h1⟩
      · rcases List.mem_cons.mp h1 with h2 | h2
        · exact Or.inl h2
        · rcases ih h2 with h3 | ⟨w3, hw3, hcw3⟩
          · exact Or.inl h3
          · exact Or.inr ⟨w3, List.mem_cons_of_mem _ hw3, hcw3⟩

theorem noDoubleWs_append_words (w l : List Char)
    (hw : ∀ c ∈ w, isWsChar c = false) (hl : noDoubleWs l = true) :
    noDoubleWs (w ++ l) = true := by
  induction w with
  | nil => exact hl
  | cons c w2 ih =>
    rw [List.cons_append, noDoubleWs_cons_iff]
    exact ⟨Or.inl (hw c (List.mem_cons_self _ _)),
      ih (fun c2 h2 => hw c2 (List.mem_cons_of_mem _ h2))⟩

theorem trail_append (u v : List Char) (hv : v ≠ []) :
    headNotWs (u ++ v).reverse = headNotWs v.reverse := by
  rw [List.reverse_append]
  cases hr : v.reverse with
  | nil => exact absurd (by simpa using hr) hv
  | cons e r => rfl

theorem joinSp_cons_ne_nil (w : List Char) (ws : List (List Char)) (h : w ≠ []) :
    joinSp (w :: ws) ≠ [] := by
  cases ws with
  | nil => exact h
  | cons w2 ws2 =>
    rw [show joinSp (w :: w2 :: ws2) = w ++ ' ' :: joinSp (w2 :: ws2) from rfl]
    simp

theorem joinSp_shape (ws : List (List Char))
    (hne : ∀ w ∈ ws, w ≠ [])
    (hch : ∀ w ∈ ws, ∀ c ∈ w, isWsChar c = false) :
    noDoubleWs (joinSp ws) = true ∧ headNotWs (joinSp ws) = true ∧
      headNotWs (joinSp ws).reverse = true := by
  induction ws with
  | nil => exact ⟨rfl, rfl, rfl⟩
  | cons w ws2 ih =>
    have hwch : ∀ c ∈ w, isWsChar c = false := hch w (List.mem_cons_self _ _)
    have hwne : w ≠ [] := hne w (List.mem_cons_self _ _)
    have hwhead : headNotWs w = true := by
      cases w with
      | nil => exact absurd rfl hwne
      | cons c r => simpa [headNotWs] using hwch c (List.mem_cons_self _ _)
    have hwtrail : headNotWs w.reverse = true := by
      cases hr : w.reverse with
      | nil => exact absurd (by simpa using hr) hwne
      | cons e r =>
        have he : e ∈ w := by
          have h3 : e ∈ w.reverse := by
            rw [hr]
            exact List.mem_cons_self _ _
          exact List.mem_reverse.mp h3
        simpa [headNotWs] using hwch e he
    cases ws2 with
    | nil =>
      refine ⟨?_, hwhead, hwtrail⟩
      have := noDoubleWs_append_words w [] hwch rfl
      simpa using this
    | cons w2 ws3 =>
      obtain ⟨ihnd, ihh, ihtr⟩ := ih
        (fun w3 h3 => hne w3 (List.mem_cons_of_mem _ h3))
        (fun w3 h3 => hch w3 (List.mem_cons_of_mem _ h3))
      have hJne : joinSp (w2 :: ws3) ≠ [] :=
        joinSp_cons_ne_nil w2 ws3 (hne w2 (List.mem_cons_of_mem _ (List.mem_cons_self _ _)))
      rw [show joinSp (w :: w2 :: ws3) = w ++ ' ' :: joinSp (w2 :: ws3) from rfl]
      refine ⟨?_, ?_, ?_⟩
      · apply noDoubleWs_append_words w _ hwch
        rw [noDoubleWs_cons_iff]
        exact ⟨Or.inr ihh, ihnd⟩
      · cases w with
        | nil => exact absurd rfl hwne
        | cons c r => simpa [headNotWs] using hwch c (List.mem_cons_self _ _)
      · rw [trail_append w _ (by simp), trail_cons_ne ' ' _ hJne]
        exact ihtr

/-! ### Idempotence of the normalizer on special-character-free input -/

theorem normalizeL_joinSp_fixed (ws2 : List (List Char))
    (hne2 : ∀ w ∈ ws2, w ≠ [])
    (hch2 : ∀ w ∈ ws2, ∀ c ∈ w,
      isWsChar c = false ∧ c.toLower = c ∧ isWordChar c = true)
    (hstop2 : 1 < ws2.length → ∀ w ∈ ws2, (!stopWordsL.contains w) = true) :
    normalizeL (joinSp ws2) = joinSp ws2 := by
  cases ws2 with
  | nil => decide
  | cons w0 ws0 =>
    have hne3 : (w0 :: ws0) ≠ [] := by simp
    have htokws : ∀ w ∈ (w0 :: ws0), ∀ c ∈ w, isWsChar c = false :=
      fun w hw c hc => (hch2 w hw c hc).1
    obtain ⟨hnd_t, hh_t, htr_t⟩ := joinSp_shape (w0 :: ws0) hne2 htokws
    have hchar_t : ∀ c ∈ joinSp (w0 :: ws0),
        (isWordChar c || isWsChar c) = true ∧ c.toLower = c := by
      intro c hc
      rcases mem_joinSp _ c hc with hsp | ⟨w, hw, hcw⟩
      · subst hsp
        exact ⟨by decide, by decide⟩
      · obtain ⟨hn, hl, hwd⟩ := hch2 w hw c hcw
        exact ⟨by simp [hwd], hl⟩
    have hwsonly_t : ∀ c ∈ joinSp (w0 :: ws0), isWsChar c = true → c = ' ' := by
      intro c hc hw
      rcases mem_joinSp _ c hc with hsp | ⟨w, hw2, hcw⟩
      · exact hsp
      · rw [(hch2 w hw2 c hcw).1] at hw
        cases hw
    have hclean : cleanL (joinSp (w0 :: ws0)) = joinSp (w0 :: ws0) := by
      rw [cleanL, lowerStr_eq_self _ (fun c hc => (hchar_t c hc).2),
        trimL_eq_self _ hh_t htr_t, collapseL,
        (collapseAux_eq_self _ hwsonly_t hnd_t).1,
        stripL_eq_self _ (fun c hc => (hchar_t c hc).1)]
    have hsplit : splitSp (joinSp (w0 :: ws0)) = w0 :: ws0 :=
      splitSp_joinSp _ hne3 (fun w hw hsp =>
        absurd (htokws w hw ' ' hsp) (by decide))
    rw [normalizeL, hclean, stopPhaseL, hsplit]
    by_cases hlen : 1 < (w0 :: ws0).length
    · rw [if_pos hlen, List.filter_eq_self.mpr (hstop2 hlen)]
    · rw [if_neg hlen]

theorem normalizeL_idem (l : List Char)
    (h : ∀ c ∈ l, (isWordChar c || isWsChar c) = true) :
    normalizeL (normalizeL l) = normalizeL l := by
  have hchars : ∀ c ∈ cleanL l, (isWordChar c = true ∨ c = ' ') ∧ c.toLower = c := by
    intro c hc
    rw [cleanL] at hc
    have hc2 := List.mem_filter.mp hc
    rcases mem_collapseAux _ _ _ hc2.1 with hsp | ⟨hmem, hnws⟩
    · subst hsp
      exact ⟨Or.inr rfl, by decide⟩
    · obtain ⟨c0, hc0mem, hc0eq⟩ := List.mem_map.mp (mem_trimL _ _ hmem)
      subst hc0eq
      have hor := h c0 hc0mem
      rw [Bool.or_eq_true] at hor
      rcases hor with hw | hws
      · exact ⟨Or.inl (isWordChar_toLower c0 hw), toLower_toLower c0⟩
      · rw [toLower_of_ws c0 hws] at hnws
        rw [hws] at hnws
        cases hnws
  have hwsonly : ∀ c ∈ cleanL l, isWsChar c = true → c = ' ' := by
    intro c hc hw
    rcases (hchars c hc).1 with h1 | h1
    · rw [wordChar_not_ws c h1] at hw
      cases hw
    · exact h1
  have hv : ∀ c ∈ collapseL (trimL (lowerStr l)), (isWordChar c || isWsChar c) = true := by
    intro c hc
    rcases mem_collapseAux _ _ _ hc with hsp | ⟨hmem, hnws⟩
    · subst hsp
      decide
    · obtain ⟨c0, hc0mem, hc0eq⟩ := List.mem_map.mp (mem_trimL _ _ hmem)
      subst hc0eq
      have hor := h c0 hc0mem
      rw [Bool.or_eq_true] at hor
      rcases hor with hw | hws
      · simp [isWordChar_toLower c0 hw]
      · rw [toLower_of_ws c0 hws]
        simp [hws]
  have hstrip : cleanL l = collapseL (trimL (lowerStr l)) := by
    rw [cleanL]
    exact stripL_eq_self _ hv
  have hhead : headNotWs (cleanL l) = true := by
    rw [hstrip, collapseL]
    exact headNotWs_collapseAux_false _ (headNotWs_trimL _)
  have htrail : headNotWs (cleanL l).reverse = true := by
    rw [hstrip, collapseL]
    exact trail_collapseAux _ false (trail_trimL _)
  have hnd : noDoubleWs (cleanL l) = true := by
    rw [hstrip, collapseL]
    exact noDoubleWs_collapseAux _ false
  by_cases hem : cleanL l = []
  · have hrepr0 : normalizeL l = [] := by
      rw [normalizeL, hem]
      decide
    rw [hrepr0]
    decide
  · have htok_ne : ∀ w ∈ splitSp (cleanL l), w ≠ [] :=
      splitSp_tokens_nonempty_aux (cleanL l).length (cleanL l) le_rfl hhead htrail
        hnd hwsonly hem
    have htokchars : ∀ w ∈ splitSp (cleanL l), ∀ c ∈ w,
        isWsChar c = false ∧ c.toLower = c ∧ isWordChar c = true := by
      intro w hw c hc
      have hcu := mem_of_mem_splitSp _ w c hw hc
      have hch := hchars c hcu
      rcases hch.1 with h1 | h1
      · exact ⟨wordChar_not_ws c h1, hch.2, h1⟩
      · exact absurd (h1 ▸ hc) (splitSp_no_space _ w hw)
    by_cases hlen : 1 < (splitSp (cleanL l)).length
    · have hrepr : normalizeL l =
          joinSp ((splitSp (cleanL l)).filter (fun w => !stopWordsL.contains w)) := by
        rw [normalizeL, stopPhaseL]
        simp only [if_pos hlen]
      rw [hrepr]
      apply normalizeL_joinSp_fixed
      · exact fun w hw => htok_ne w (List.mem_filter.mp hw).1
      · exact fun w hw => htokchars w (List.mem_filter.mp hw).1
      · exact fun _ w hw => (List.mem_filter.mp hw).2
    · have hrepr : normalizeL l = joinSp (splitSp (cleanL l)) := by
        rw [normalizeL, stopPhaseL]
        simp only [if_neg hlen]
      rw [hrepr]
      apply normalizeL_joinSp_fixed
      · exact htok_ne
      · exact htokchars
      · intro hcontra
        rw [joinSp_splitSp] at hrepr
        exact absurd hcontra hlen

/-- C5 counterexample: `normalizeTopic` is not idempotent on all
strings.  Stripping the special character of `"b !"` leaves a trailing
space that survives the token phase, and a second normalization removes
it. -/
theorem claim_C5_counterexample :
    normalizeTopic "b !" = "b " ∧
    normalizeTopic (normalizeTopic "b !") = "b" ∧
    normalizeTopic (normalizeTopic "b !") ≠ normalizeTopic "b !" := by
  refine ⟨by decide, by decide, by decide⟩

/-- C5 (amended): `normalizeTopic` is idempotent on every string with no
special characters, i.e. every string whose characters are all word
characters (alphanumeric or underscore, the JavaScript `\w` class) or
whitespace.  On strings with special characters adjacent to whitespace
the first pass can leave residual spaces, so full idempotence fails (see
the counterexample). -/
theorem claim_C5 (s : String)
    (h : ∀ c ∈ s.data, (isWordChar c || isWsChar c) = true) :
    normalizeTopic (normalizeTopic s) = normalizeTopic s := by
  have hmain := normalizeL_idem s.data h
  show (⟨normalizeL (normalizeTopic s).data⟩ : String) = normalizeTopic s
  have hd : (normalizeTopic s).data = normalizeL s.data := rfl
  rw [hd, hmain]
  rfl

/-- C5 witness: the amended claim applied to the concrete input
`"Machine  Learning"`. -/
theorem claim_C5_witness :
    normalizeTopic (normalizeTopic "Machine  Learning") =
      normalizeTopic "Machine  Learning" :=
  claim_C5 "Machine  Learning" (by decide)

/-! ### C8: the core-topic interest floor -/

/-- C8: whenever the interest level of a topic whose `isCore` flag is
true is recomputed by `updateInterestLevel`, the stored interest level
becomes `max 0.7 (0.3 * recency + 0.7 * frequency)` with
`recency = exp (-0.1 * daysSinceLastUpdate)` and
`frequency = min 1 (observationCount / 10)`, which is at least `0.7`
regardless of how many days have passed. -/
theorem claim_C8 (σ : TMState) (now : ℕ) (topic : String) (md : TopicMetadata)
    (h1 : mapGet σ.discoveredTopics topic = some md) (h2 : md.isCore = true) :
    mapGet (updateInterestLevel σ now topic).discoveredTopics topic =
      some { md with interestLevel :=
        (max 0.7
          (0.3 * Real.exp (-0.1 * (((now : ℝ) - (md.lastUpdated : ℝ)) / msPerDay)) +
            0.7 * min 1.0 ((md.observationCount : ℝ) / 10))) } ∧
    (0.7 : ℝ) ≤
      max 0.7
        (0.3 * Real.exp (-0.1 * (((now : ℝ) - (md.lastUpdated : ℝ)) / msPerDay)) +
          0.7 * min 1.0 ((md.observationCount : ℝ) / 10)) := by
  have hform :
      interestFormula md.isCore (((now : ℝ) - (md.lastUpdated : ℝ)) / msPerDay)
          md.observationCount =
        max 0.7
          (0.3 * Real.exp (-0.1 * (((now : ℝ) - (md.lastUpdated : ℝ)) / msPerDay)) +
            0.7 * min 1.0 ((md.observationCount : ℝ) / 10)) := by
    rw [h2]
    rfl
  constructor
  · simp only [updateInterestLevel, h1]
    rw [mapGet_mapSet, if_pos rfl, hform]
  · exact le_max_left _ _

/-- C8 witness: the claim applied to a fresh core topic observed zero
times, recomputed thirty days (in milliseconds) after registration. -/
theorem claim_C8_witness :
    mapGet (updateInterestLevel stateCore 2592000000000 "base").discoveredTopics
        "base" =
      some { mdFreshCore with interestLevel :=
        (max 0.7
          (0.3 * Real.exp (-0.1 * ((((2592000000000 : ℕ) : ℝ) -
              ((mdFreshCore.lastUpdated : ℕ) : ℝ)) / msPerDay)) +
            0.7 * min 1.0 ((mdFreshCore.observationCount : ℝ) / 10))) } ∧
    (0.7 : ℝ) ≤
      max 0.7
        (0.3 * Real.exp (-0.1 * ((((2592000000000 : ℕ) : ℝ) -
            ((mdFreshCore.lastUpdated : ℕ) : ℝ)) / msPerDay)) +
          0.7 * min 1.0 ((mdFreshCore.observationCount : ℝ) / 10)) :=
  claim_C8 stateCore 2592000000000 "base" mdFreshCore rfl rfl

/-! ### C7: the similarity scan as highest-Jaccard selection -/

theorem find?_cons_true {α : Type} (p : α → Bool) (a : α) (l : List α)
    (h : p a = true) : List.find? p (a :: l) = some a := by
  simp [List.find?, h]

theorem find?_cons_false {α : Type} (p : α → Bool) (a : α) (l : List α)
    (h : p a = false) : List.find? p (a :: l) = List.find? p l := by
  simp [List.find?, h]

theorem find?_congr {α : Type} (p q : α → Bool) :
    ∀ (l : List α), (∀ x ∈ l, p x = q x) → l.find? p = l.find? q := by
  intro l
  induction l with
  | nil => intro h; rfl
  | cons a as ih =>
    intro h
    have ha := h a (List.mem_cons_self a as)
    cases hp : p a with
    | true =>
      rw [find?_cons_true p a as hp, find?_cons_true q a as (ha ▸ hp)]
    | false =>
      rw [find?_cons_false p a as hp, find?_cons_false q a as (ha ▸ hp)]
      exact ih (fun x hx => h x (List.mem_cons_of_mem a hx))

theorem le_foldr_max (l : List ℚ) (x : ℚ) (hx : x ∈ l) :
    x ≤ l.foldr max 0 := by
  induction l with
  | nil => simp at hx
  | cons a as ih =>
    rcases List.mem_cons.mp hx with heq | hmem
    · subst heq
      exact le_max_left _ _
    · exact le_trans (ih hmem) (le_max_right _ _)

theorem foldr_max_shape (l : List ℚ) :
    l.foldr max 0 = 0 ∨ l.foldr max 0 ∈ l := by
  induction l with
  | nil => left; rfl
  | cons a as ih =>
    rcases le_total a (as.foldr max 0) with hle | hle
    · rw [List.foldr_cons, max_eq_right hle]
      rcases ih with h0 | hmem
      · left; exact h0
      · right; exact List.mem_cons_of_mem a hmem
    · rw [List.foldr_cons, max_eq_left hle]
      right
      exact List.mem_cons_self a as

theorem qualMax_le (n : String) (θ : ℚ) :
    ∀ (l : List String) (s : ℚ), s ≤ qualMax n θ l s := by
  intro l
  induction l with
  | nil => intro s; simp [qualMax]
  | cons k ks ih =>
    intro s
    simp only [qualMax]
    refine le_trans ?_ (ih _)
    by_cases hk : k = n
    · rw [if_pos hk]
    · rw [if_neg hk]
      by_cases hc : jaccard n k > s ∧ jaccard n k ≥ θ
      · rw [if_pos hc]
        exact le_of_lt hc.1
      · rw [if_neg hc]

theorem qualMax_dom (n : String) (θ : ℚ) :
    ∀ (l : List String) (s : ℚ) (k : String), k ∈ l → ¬k = n →
      θ ≤ jaccard n k → jaccard n k ≤ qualMax n θ l s := by
  intro l
  induction l with
  | nil => intro s k hk; simp at hk
  | cons a as ih =>
    intro s k hk hkn hθ
    simp only [qualMax]
    rcases List.mem_cons.mp hk with heq | hmem
    · subst heq
      rw [if_neg hkn]
      by_cases hc : jaccard n k > s ∧ jaccard n k ≥ θ
      · rw [if_pos hc]
        exact qualMax_le n θ as _
      · have hle : jaccard n k ≤ s := by
          by_contra hlt
          exact hc ⟨lt_of_not_le hlt, hθ⟩
        rw [if_neg hc]
        exact le_trans hle (qualMax_le n θ as s)
    · exact ih _ k hmem hkn hθ

theorem qualMax_shape (n : String) (θ : ℚ) :
    ∀ (l : List String) (s : ℚ),
      qualMax n θ l s = s ∨
        ∃ k, k ∈ l ∧ ¬k = n ∧ qualMax n θ l s = jaccard n k ∧
          θ ≤ qualMax n θ l s ∧ s < qualMax n θ l s := by
  intro l
  induction l with
  | nil => intro s; left; rfl
  | cons a as ih =>
    intro s
    simp only [qualMax]
    by_cases ha : a = n
    · rw [if_pos ha]
      rcases ih s with h0 | ⟨k, hkmem, hkn, heq, hθm, hlt⟩
      · left; exact h0
      · right
        exact ⟨k, List.mem_cons_of_mem a hkmem, hkn, heq, hθm, hlt⟩
    · rw [if_neg ha]
      by_cases hc : jaccard n a > s ∧ jaccard n a ≥ θ
      · rw [if_pos hc]
        rcases ih (jaccard n a) with h0 | ⟨k, hkmem, hkn, heq, hθm, hlt⟩
        · right
          refine ⟨a, List.mem_cons_self a as, ha, h0, ?_, ?_⟩
          · rw [h0]; exact hc.2
          · rw [h0]; exact hc.1
        · right
          exact ⟨k, List.mem_cons_of_mem a hkmem, hkn, heq, hθm,
            lt_trans hc.1 hlt⟩
      · rw [if_neg hc]
        rcases ih s with h0 | ⟨k, hkmem, hkn, heq, hθm, hlt⟩
        · left; exact h0
        · right
          exact ⟨k, List.mem_cons_of_mem a hkmem, hkn, heq, hθm, hlt⟩

theorem scanBest_fst (n : String) (θ : ℚ) :
    ∀ (l : List String) (b : Option String) (s : ℚ),
      (scanBest n θ l (b, s)).1 =
        if s < qualMax n θ l s then
          l.find? (fun k =>
            decide (¬k = n ∧ θ ≤ jaccard n k ∧ jaccard n k = qualMax n θ l s))
        else b := by
  intro l
  induction l with
  | nil =>
    intro b s
    simp only [scanBest, qualMax]
    rw [if_neg (lt_irrefl s)]
  | cons a as ih =>
    intro b s
    simp only [scanBest, qualMax]
    dsimp only
    by_cases ha : a = n
    · simp only [if_pos ha, ih b s]
      have hpa :
          (fun k => decide (¬k = n ∧ θ ≤ jaccard n k ∧
            jaccard n k = qualMax n θ as s)) a = false :=
        decide_eq_false (fun hh => hh.1 ha)
      by_cases hlt : s < qualMax n θ as s
      · rw [if_pos hlt, if_pos hlt,
          find?_cons_false (fun k => decide (¬k = n ∧ θ ≤ jaccard n k ∧
            jaccard n k = qualMax n θ as s)) a as hpa]
      · rw [if_neg hlt, if_neg hlt]
    · simp only [if_neg ha]
      by_cases hc : jaccard n a > s ∧ jaccard n a ≥ θ
      · simp only [if_pos hc, ih (some a) (jaccard n a)]
        have hex : jaccard n a ≤ qualMax n θ as (jaccard n a) :=
          qualMax_le n θ as _
        have hsM : s < qualMax n θ as (jaccard n a) := lt_of_lt_of_le hc.1 hex
        rw [if_pos hsM]
        rcases eq_or_lt_of_le hex with heq | hlt2
        · rw [if_neg (not_lt.mpr (le_of_eq heq.symm))]
          have hpa :
              (fun k => decide (¬k = n ∧ θ ≤ jaccard n k ∧
                jaccard n k = qualMax n θ as (jaccard n a))) a = true :=
            decide_eq_true ⟨ha, hc.2, heq⟩
          rw [find?_cons_true (fun k => decide (¬k = n ∧ θ ≤ jaccard n k ∧
            jaccard n k = qualMax n θ as (jaccard n a))) a as hpa]
        · rw [if_pos hlt2]
          have hpa :
              (fun k => decide (¬k = n ∧ θ ≤ jaccard n k ∧
                jaccard n k = qualMax n θ as (jaccard n a))) a = false :=
            decide_eq_false (fun hh => absurd hh.2.2 (ne_of_lt hlt2))
          rw [find?_cons_false (fun k => decide (¬k = n ∧ θ ≤ jaccard n k ∧
            jaccard n k = qualMax n θ as (jaccard n a))) a as hpa]
      · simp only [if_neg hc, ih b s]
        by_cases hlt : s < qualMax n θ as s
        · have hpa :
              (fun k => decide (¬k = n ∧ θ ≤ jaccard n k ∧
                jaccard n k = qualMax n θ as s)) a = false := by
            refine decide_eq_false (fun hh => hc ⟨?_, hh.2.1⟩)
            rw [hh.2.2]
            exact hlt
          rw [if_pos hlt, if_pos hlt,
            find?_cons_false (fun k => decide (¬k = n ∧ θ ≤ jaccard n k ∧
              jaccard n k = qualMax n θ as s)) a as hpa]
        · rw [if_neg hlt, if_neg hlt]

theorem scan_eq_spec (n : String) (θ : ℚ) (keys : List String)
    (hn : ∀ k ∈ keys, ¬k = n) (hθ : 0 < θ) :
    (scanBest n θ keys (none, 0)).1 = specHighestJaccard n θ keys := by
  rw [scanBest_fst n θ keys none 0]
  simp only [specHighestJaccard]
  by_cases hb : θ ≤ (keys.map (fun k => jaccard n k)).foldr max 0
  · have hBpos : 0 < (keys.map (fun k => jaccard n k)).foldr max 0 :=
      lt_of_lt_of_le hθ hb
    obtain ⟨k0, hk0, hBk0⟩ :
        ∃ k0, k0 ∈ keys ∧
          jaccard n k0 = (keys.map (fun k => jaccard n k)).foldr max 0 := by
      rcases foldr_max_shape (keys.map (fun k => jaccard n k)) with h0 | hmem
      · rw [h0] at hBpos
        exact absurd hBpos (lt_irrefl 0)
      · obtain ⟨k0, hk0, hBk0⟩ := List.mem_map.mp hmem
        exact ⟨k0, hk0, hBk0⟩
    have hBM : (keys.map (fun k => jaccard n k)).foldr max 0 ≤
        qualMax n θ keys 0 := by
      rw [← hBk0]
      exact qualMax_dom n θ keys 0 k0 hk0 (hn k0 hk0) (hBk0 ▸ hb)
    have hMB : qualMax n θ keys 0 ≤
        (keys.map (fun k => jaccard n k)).foldr max 0 := by
      rcases qualMax_shape n θ keys 0 with h0 | ⟨k, hkmem, _, heq, _, _⟩
      · rw [h0]
        exact le_of_lt hBpos
      · rw [heq]
        exact le_foldr_max _ _ (List.mem_map.mpr ⟨k, hkmem, rfl⟩)
    have hMeq : qualMax n θ keys 0 =
        (keys.map (fun k => jaccard n k)).foldr max 0 := le_antisymm hMB hBM
    have h0M : 0 < qualMax n θ keys 0 := by
      rw [hMeq]
      exact hBpos
    rw [if_pos h0M, if_pos hb]
    apply find?_congr
    intro k hk
    rw [hMeq]
    by_cases hkB : jaccard n k = (keys.map (fun k => jaccard n k)).foldr max 0
    · rw [decide_eq_true hkB,
        decide_eq_true (And.intro (hn k hk) (And.intro (by rw [hkB]; exact hb) hkB))]
    · rw [decide_eq_false hkB, decide_eq_false (fun hh => hkB hh.2.2)]
  · rw [if_neg hb]
    have hM0 : qualMax n θ keys 0 = 0 := by
      rcases qualMax_shape n θ keys 0 with h0 | ⟨k, hkmem, _, heq, hθM, _⟩
      · exact h0
      · exfalso
        apply hb
        calc θ ≤ qualMax n θ keys 0 := hθM
          _ = jaccard n k := heq
          _ ≤ (keys.map (fun k => jaccard n k)).foldr max 0 :=
            le_foldr_max _ _ (List.mem_map.mpr ⟨k, hkmem, rfl⟩)
    rw [hM0, if_neg (lt_irrefl 0)]

/-- C7 counterexample: at threshold `0` the claim fails.  Every key
"reaches the threshold" (all similarities are at or above `0`), so the
spec-side selection returns the first key, but the scan of
`findSimilarTopicByComparison` demands a strict improvement over its
initial best similarity of `0` and returns nothing.  The candidate
"quantum" shares no word with either stored key. -/
theorem claim_C7_counterexample :
    findSimilarTopic stateJac "quantum" 0 none = none ∧
    specHighestJaccard (normalizeTopic "quantum") 0
        (stateJac.discoveredTopics.map Prod.fst) =
      some "machine learning model" ∧
    (mapGet stateJac.discoveredTopics (normalizeTopic "quantum")).isSome = false ∧
    mapGet stateJac.synonyms (normalizeTopic "quantum") = none ∧
    stateJac.discoveredTopics.length < 100 := by
  exact ⟨by with_unfolding_all decide, by with_unfolding_all decide,
    by decide, by decide, by decide⟩

/-- C7 (amended): for every candidate with no exact match in the topic
map and no entry in the synonym table, when the registry holds fewer
than 100 topics and the similarity threshold is positive,
`findSimilarTopic` returns the existing key with the highest word-set
Jaccard similarity to the normalized candidate provided that similarity
is at or above the threshold (ties broken in favor of the
first-encountered key in scan order), and none when no existing key
reaches the threshold.  At threshold exactly `0` the scan instead
returns none even though every key trivially reaches the threshold (see
the counterexample). -/
theorem claim_C7 (σ : TMState) (topic : String) (θ : ℚ)
    (oracle : Option (String × ℚ))
    (h1 : (mapGet σ.discoveredTopics (normalizeTopic topic)).isSome = false)
    (h2 : mapGet σ.synonyms (normalizeTopic topic) = none)
    (h3 : σ.discoveredTopics.length < 100)
    (h4 : 0 < θ) :
    findSimilarTopic σ topic θ oracle =
      specHighestJaccard (normalizeTopic topic) θ
        (σ.discoveredTopics.map Prod.fst) := by
  have hnone : mapGet σ.discoveredTopics (normalizeTopic topic) = none := by
    cases hg : mapGet σ.discoveredTopics (normalizeTopic topic) with
    | none => rfl
    | some v =>
      rw [hg] at h1
      simp at h1
  have hn : ∀ k ∈ σ.discoveredTopics.map Prod.fst,
      ¬k = normalizeTopic topic := by
    intro k hk hke
    exact not_mem_of_mapGet_eq_none σ.discoveredTopics (normalizeTopic topic)
      hnone (hke ▸ hk)
  simp only [findSimilarTopic, h1, Bool.false_eq_true, if_false, h2]
  rw [if_pos h3, findSimilarTopicByComparison]
  exact scan_eq_spec (normalizeTopic topic) θ _ hn h4

/-- C7 witness: the amended claim applied to a registry holding
"machine learning model" and "deep learning" with the candidate
"machine learning" and threshold `1/2`. -/
theorem claim_C7_witness :
    findSimilarTopic stateJac "machine learning" (mkRat 1 2) none =
      specHighestJaccard (normalizeTopic "machine learning") (mkRat 1 2)
        (stateJac.discoveredTopics.map Prod.fst) ∧
    findSimilarTopic stateJac "machine learning" (mkRat 1 2) none =
      some "machine learning model" :=
  ⟨claim_C7 stateJac "machine learning" (mkRat 1 2) none (by decide) (by decide)
      (by decide) (by decide),
    by with_unfolding_all decide⟩

end TopicModel
